import Mathlib

/-!
Verification of the `rt` task-runner core.

This file gives a shallow embedding, in Lean, of the core algorithms of the
`rt` command-line tool: the quote/bracket-aware argument tokenizer
(`src/task_args.rs`), the justfile import resolver and listing parsers
(`src/parser/justfile.rs`, `src/parser/makefile.rs`, `src/parser/taskfile.rs`,
`src/parser/cargo_make.rs`), and the execution-history ledger
(`src/history.rs`), together with theorems settling the specified properties
of these components.

Modelling conventions:
* Rust `&str` / `String` values manipulated character-by-character are
  modelled as `List Char` (abbreviated `Str`); byte indices produced by
  `char_indices` become character positions, which is faithful because the
  Rust code only slices at `char_indices` boundaries.
* Rust `char::is_whitespace` is modelled by `Char.isWhitespace`
  (space, tab, CR, LF); the inputs of interest are ASCII.
* File-system access, OS path resolution, serde serialization and
  RFC3339 timestamp parsing are external to the repository; they enter the
  embedding as explicit function parameters, so every theorem quantifies
  over their behaviour.
* `usize::saturating_add(1)` is modelled faithfully by
  `saturating_add_one` with `USIZE_MAX = 2^64 - 1`.
-/

namespace Rt

/-- Character-list model of Rust string slices. -/
abbrev Str := List Char

/-- Embed a Lean string literal into the `List Char` model. -/
def str (s : String) : Str := s.data

/-- The backtick character (written via its code point). -/
def backtickChar : Char := Char.ofNat 96

/-- The single-quote character. -/
def squoteChar : Char := '\''

/-- Rust `char::is_whitespace` (restricted to the ASCII whitespace the
inputs use). -/
def isWS (c : Char) : Bool := c.isWhitespace

/-- Rust `str::trim_start`. -/
def trimStart (s : Str) : Str := s.dropWhile isWS

/-- Rust `str::trim_end`. -/
def trimEnd (s : Str) : Str := (s.reverse.dropWhile isWS).reverse

/-- Rust `str::trim`. -/
def trim (s : Str) : Str := trimStart (trimEnd s)

/-- Rust `str::trim_start_matches(c)`: drop every leading occurrence of `c`. -/
def trimStartMatches (c : Char) (s : Str) : Str := s.dropWhile (fun x => x = c)

/-- Rust `str::trim_end_matches(c)`: drop every trailing occurrence of `c`. -/
def trimEndMatches (c : Char) (s : Str) : Str :=
  (s.reverse.dropWhile (fun x => x = c)).reverse

/-- Rust `str::starts_with(pat)` for a literal pattern (first argument). -/
def startsWithStr : Str → Str → Bool
  | [], _ => true
  | _ :: _, [] => false
  | p :: ps, c :: cs => p = c && startsWithStr ps cs

/-- Rust `str::strip_prefix(pat)` (pattern is the first argument). -/
def stripPrefixStr : Str → Str → Option Str
  | [], s => some s
  | _ :: _, [] => none
  | p :: ps, c :: cs => if p = c then stripPrefixStr ps cs else none

/-- Rust `str::split_once(sep)` for a one-character separator. -/
def splitOnceChar (sep : Char) : Str → Option (Str × Str)
  | [] => none
  | c :: rest =>
    if c = sep then some ([], rest)
    else
      match splitOnceChar sep rest with
      | some (a, b) => some (c :: a, b)
      | none => none

/-- Split at the first character satisfying `p`
(Rust `str::splitn(2, p)` yielding at most two pieces). -/
def splitOnceBy (p : Char → Bool) : Str → Option (Str × Str)
  | [] => none
  | c :: rest =>
    if p c then some ([], rest)
    else
      match splitOnceBy p rest with
      | some (a, b) => some (c :: a, b)
      | none => none

/-- Worker for `splitWS`; `cur` holds the current token reversed. -/
def splitWSAux : Str → Str → List Str
  | [], cur => if cur.isEmpty then [] else [cur.reverse]
  | c :: rest, cur =>
    if isWS c then
      if cur.isEmpty then splitWSAux rest []
      else cur.reverse :: splitWSAux rest []
    else splitWSAux rest (c :: cur)

/-- Rust `str::split_whitespace`. -/
def splitWS (s : Str) : List Str := splitWSAux s []

/-- Rust `str::contains(c)` for a character. -/
def containsChar (s : Str) (c : Char) : Bool := s.any (fun x => x = c)

/-- Rust `str::contains(pat)` for a literal substring pattern. -/
def containsSub (s pat : Str) : Bool := s.tails.any (fun t => startsWithStr pat t)

/-- Split a character list at every `'\n'`; always returns at least one
(possibly empty) piece. -/
def splitLinesAux : Str → List Str
  | [] => [[]]
  | c :: rest =>
    let r := splitLinesAux rest
    if c = '\n' then [] :: r
    else
      match r with
      | [] => [[c]]
      | p :: ps => (c :: p) :: ps

/-- Strip one trailing `'\r'` (the CRLF half that `str::lines` removes). -/
def stripCR (l : Str) : Str := if l.getLast? = some '\r' then l.dropLast else l

/-- Rust `str::lines`: split on `'\n'`, drop a final empty segment, strip a
trailing `'\r'` from each line. -/
def lines (s : Str) : List Str :=
  let parts := splitLinesAux s
  let parts := if parts.getLast? = some [] then parts.dropLast else parts
  parts.map stripCR

end Rt

namespace Rt.TaskArgs

/-- `task_args.rs` `enum Quote`. -/
inductive Quote
  | Single
  | Double
  | Backtick
deriving DecidableEq

/-- `task_args.rs` `struct ParseState`. -/
structure ParseState where
  quote : Option Quote
  escaped : Bool
  paren : Nat
  bracket : Nat
  brace : Nat
deriving DecidableEq

/-- The initial scanner state (all fields zero / none), as built inline by
`find_top_level_colon`, `split_top_level_whitespace` and
`has_top_level_char`. -/
def ParseState.init : ParseState := ⟨none, false, 0, 0, 0⟩

/-- `ParseState::top_level`. -/
def ParseState.top_level (s : ParseState) : Bool :=
  s.quote.isNone && s.paren == 0 && s.bracket == 0 && s.brace == 0

/-- `task_args.rs` `advance_state`; Rust `usize` saturating subtraction on the
counters is `Nat` subtraction. -/
def advance_state (state : ParseState) (ch : Char) : ParseState :=
  match state.quote with
  | some quote =>
    if state.escaped then { state with escaped := false }
    else if ch = '\\' then { state with escaped := true }
    else
      let closes_quote : Bool :=
        match quote with
        | .Single => ch = squoteChar
        | .Double => ch = '"'
        | .Backtick => ch = backtickChar
      if closes_quote then { state with quote := none } else state
  | none =>
    if ch = squoteChar then { state with quote := some .Single }
    else if ch = '"' then { state with quote := some .Double }
    else if ch = backtickChar then { state with quote := some .Backtick }
    else if ch = '(' then { state with paren := state.paren + 1 }
    else if ch = ')' then { state with paren := state.paren - 1 }
    else if ch = '[' then { state with bracket := state.bracket + 1 }
    else if ch = ']' then { state with bracket := state.bracket - 1 }
    else if ch = '\x7b' then { state with brace := state.brace + 1 }
    else if ch = '\x7d' then { state with brace := state.brace - 1 }
    else state

/-- Worker for `find_top_level_colon` (the loop over `char_indices`). -/
def find_top_level_colon_aux (state : ParseState) (idx : Nat) : Str → Option Nat
  | [] => none
  | ch :: rest =>
    if state.top_level ∧ ch = ':' then some idx
    else find_top_level_colon_aux (advance_state state ch) (idx + 1) rest

/-- `task_args.rs` `find_top_level_colon`. -/
def find_top_level_colon (input : Str) : Option Nat :=
  find_top_level_colon_aux .init 0 input

/-- The slice `&input[a..b]` at character positions. -/
def slice (input : Str) (a b : Nat) : Str := (input.take b).drop a

/-- Worker for `split_top_level_whitespace`: `start` is the pending slice
start, `idx` the current position, the last argument the remaining input. -/
def split_top_level_whitespace_aux (input : Str) :
    ParseState → Nat → Option Nat → Str → List Str
  | _, _, start, [] =>
    (match start with
     | some s => [input.drop s]
     | none => [])
  | state, idx, start, ch :: rest =>
    if state.top_level ∧ isWS ch then
      match start with
      | some s =>
        slice input s idx :: split_top_level_whitespace_aux input state (idx + 1) none rest
      | none => split_top_level_whitespace_aux input state (idx + 1) none rest
    else
      split_top_level_whitespace_aux input (advance_state state ch) (idx + 1)
        (some (start.getD idx)) rest

/-- `task_args.rs` `split_top_level_whitespace`. -/
def split_top_level_whitespace (input : Str) : List Str :=
  split_top_level_whitespace_aux input .init 0 none input

/-- Worker for `has_top_level_char`. -/
def has_top_level_char_aux (state : ParseState) (target : Char) : Str → Bool
  | [] => false
  | ch :: rest =>
    if state.top_level ∧ ch = target then true
    else has_top_level_char_aux (advance_state state ch) target rest

/-- `task_args.rs` `has_top_level_char`. -/
def has_top_level_char (input : Str) (target : Char) : Bool :=
  has_top_level_char_aux .init target input

/-- `task_args.rs` `is_valid_identifier` (Rust `is_ascii_alphabetic` /
`is_ascii_alphanumeric` are `Char.isAlpha` / `Char.isAlphanum`). -/
def is_valid_identifier (value : Str) : Bool :=
  match value with
  | [] => false
  | first :: rest =>
    (first = '_' || first.isAlpha) &&
      rest.all (fun ch => ch = '_' || ch = '-' || ch.isAlphanum)

/-- The classification loop over `parts[1..]` in
`parse_required_from_just_header`. -/
def collect_required (parts : List Str) : List Str :=
  parts.foldl
    (fun required raw =>
      let token := trimEndMatches ',' raw
      if token.isEmpty ∨ token.head? = some '*' ∨ has_top_level_char token '=' then
        required
      else
        let clean := token.dropWhile (fun c => c = '$' ∨ c = '+' ∨ c = '*')
        if is_valid_identifier clean then required ++ [clean] else required)
    []

/-- `task_args.rs` `parse_required_from_just_header`. -/
def parse_required_from_just_header (line : Str) (task : Str) : Option (List Str) :=
  if line.head? = some ' ' ∨ line.head? = some '\t' then none
  else
    let trimmed := trim line
    if trimmed.isEmpty ∨ trimmed.head? = some '#' then none
    else
      match find_top_level_colon trimmed with
      | none => none
      | some header_end =>
        if startsWithStr (str ":=") (trimmed.drop header_end) then none
        else
          let left := trim (trimmed.take header_end)
          if left.isEmpty then none
          else
            let parts := split_top_level_whitespace left
            match parts.head? with
            | none => none
            | some raw_name =>
              let name := trimStartMatches '@' raw_name
              if name ≠ task then none
              else some (collect_required (parts.drop 1))

/-- The scanner state reached after consuming the first `i` characters of
`input` (advancing through every character, which agrees with the loops in
`task_args.rs` because `advance_state` fixes whitespace at top level). -/
def stateAt (input : Str) (i : Nat) : ParseState :=
  (input.take i).foldl advance_state .init

/-- Specification-side view of `split_top_level_whitespace`: the characters
that survive the split, i.e. every character except whitespace occurring at a
top-level scanner position. -/
def keepAux (input : Str) : Nat → Str → Str
  | _, [] => []
  | idx, c :: rest =>
    if (stateAt input idx).top_level = true ∧ isWS c = true then keepAux input (idx + 1) rest
    else c :: keepAux input (idx + 1) rest

/-- Specification-side definition, following the spec's words: "the first
whitespace-delimited token of `H` (with `:`-splitting honoring quote/bracket
nesting)".  Used to compare the spec's gating condition with what
`parse_required_from_just_header` actually checks. -/
def specFirstHeaderToken (line : Str) : Option Str :=
  let trimmed := trim line
  match find_top_level_colon trimmed with
  | none => none
  | some header_end => (split_top_level_whitespace (trim (trimmed.take header_end))).head?

end Rt.TaskArgs

namespace Rt

/-- OS paths, treated as opaque tokens. -/
abbrev Path := String

/-- The error kinds of `std::io::Error` that the code distinguishes. -/
inductive IOErrorKind
  | NotFound
  | WouldBlock
  | Other
deriving DecidableEq

/-- Model of `std::io::Error`: a kind plus a message distinguishing
individual errors. -/
structure IOError where
  kind : IOErrorKind
  msg : String
deriving DecidableEq

/-- `detect.rs` `enum Runner`. -/
inductive Runner
  | Justfile
  | Taskfile
  | Maskfile
  | Mise
  | CargoMake
  | Makefile
deriving DecidableEq

/-- `detect.rs` `struct Detection`. -/
structure Detection where
  runner : Runner
  runner_file : Path
deriving DecidableEq

end Rt

namespace Rt.TaskArgs

/-- `task_args.rs` `parse_justfile_required_args`; reading the file from disk
is abstracted by the `readFile` parameter. -/
def parse_justfile_required_args (readFile : Path → Except IOError Str)
    (path : Path) (task : Str) : Except IOError (List Str) :=
  match readFile path with
  | .error e => .error e
  | .ok content =>
    .ok (((lines content).findSome? fun line =>
      parse_required_from_just_header line task).getD [])

/-- `task_args.rs` `required_args_for_task`. -/
def required_args_for_task (readFile : Path → Except IOError Str)
    (detection : Detection) (task : Str) : Except IOError (List Str) :=
  match detection.runner with
  | .Justfile => parse_justfile_required_args readFile detection.runner_file task
  | _ => .ok []

end Rt.TaskArgs

namespace Rt

/-- Rust `Ord::cmp` for strings (byte-lexicographic order; on valid UTF-8
this is code-point order, compared here via `Char.toNat`). -/
def charsCmp : Str → Str → Ordering
  | [], [] => .eq
  | [], _ :: _ => .lt
  | _ :: _, [] => .gt
  | a :: as, b :: bs =>
    if a.toNat < b.toNat then .lt
    else if b.toNat < a.toNat then .gt
    else charsCmp as bs

end Rt

namespace Rt.History

/-- `history.rs` `enum HistoryEngine`. -/
inductive HistoryEngine
  | Make
  | Just
  | Shell
  | Unknown
deriving DecidableEq

/-- `history.rs` `struct HistoryRecord`. -/
structure HistoryRecord where
  v : Nat
  ts : Str
  cmd : Str
  cwd : Str
  exit_code : Int
  duration_ms : Nat
  engine : Option HistoryEngine
  target : Option Str
  file : Option Str
  hostname : Option Str
  user : Option Str
deriving DecidableEq

/-- `history.rs` `struct StoredRecord`. -/
structure StoredRecord where
  raw : Str
  record : HistoryRecord
deriving DecidableEq

/-- The comparator in `read_from_paths`'s `sort_by`: compare parsed
timestamps, parseable before unparseable, raw lexicographic comparison when
neither parses.  RFC3339 parsing by the external `time` crate is abstracted
by `parseTs` into a linearly ordered type. -/
def record_ts_cmp {T : Type} [LinearOrder T] (parseTs : Str → Option T)
    (a b : StoredRecord) : Ordering :=
  match parseTs a.record.ts, parseTs b.record.ts with
  | some x, some y => if x < y then .lt else if x = y then .eq else .gt
  | some _, none => .lt
  | none, some _ => .gt
  | none, none => charsCmp a.record.ts b.record.ts

/-- The accumulation loop of `history.rs` `read_from_paths`: successful
reads are appended in order, the last error is remembered. -/
def read_paths_loop (readStore : Path → Except IOError (List StoredRecord)) :
    List Path → List StoredRecord → Option IOError →
      List StoredRecord × Option IOError
  | [], acc, lastError => (acc, lastError)
  | p :: rest, acc, lastError =>
    match readStore p with
    | .ok records => read_paths_loop readStore rest (acc ++ records) lastError
    | .error e => read_paths_loop readStore rest acc (some e)

/-- `history.rs` `read_from_paths`.  Reading one store is abstracted by
`readStore`; Rust's stable `sort_by` is modelled by `List.insertionSort`
(any stable sort yields the same sequence up to reordering of
comparator-equal records, which no stated property depends on). -/
def read_from_paths {T : Type} [LinearOrder T] (parseTs : Str → Option T)
    (readStore : Path → Except IOError (List StoredRecord)) (paths : List Path) :
    Except IOError (List StoredRecord) :=
  let result := read_paths_loop readStore paths [] none
  let all_records := result.1
  let last_error := result.2
  if all_records.isEmpty then
    match last_error with
    | some e => .error e
    | none => .ok []
  else
    .ok (List.insertionSort (fun a b => record_ts_cmp parseTs a b ≠ .gt) all_records)

/-- The candidate loop of `history.rs` `append_record_default`: success
returns immediately, a `WouldBlock` error (failed advisory-lock
acquisition) returns immediately, any other error is remembered and the
next candidate is tried. -/
def append_candidates_loop (appendAt : Path → Except IOError Unit) :
    List Path → Option IOError → Except IOError Unit
  | [], lastError => .error (lastError.getD ⟨.Other, "failed to write history"⟩)
  | path :: rest, lastError =>
    match appendAt path with
    | .ok _ => .ok ()
    | .error err =>
      if err.kind = .WouldBlock then .error err
      else append_candidates_loop appendAt rest (some err)

/-- `history.rs` `append_record_default`, over an abstract candidate list
(the concrete one comes from `default_history_paths`) and an abstract
single-store append `appendAt` (`HistoryStore::append`, whose outcome on a
given path is whatever the file system and lock make of it). -/
def append_record_default (appendAt : Path → Except IOError Unit)
    (candidates : List Path) : Except IOError Unit :=
  append_candidates_loop appendAt candidates none

/-- One line of `HistoryStore::read_all`: blank lines and lines that fail to
deserialize are skipped; kept lines carry their raw text. -/
def read_line (deser : Str → Option HistoryRecord) (line : Str) :
    Option StoredRecord :=
  if (trim line).isEmpty then none
  else
    match deser line with
    | some record => some ⟨line, record⟩
    | none => none

/-- `HistoryStore::read_all` on a single location holding `content`
(a missing file reads as empty content).  serde-json deserialization is
abstracted by `deser`. -/
def read_all (deser : Str → Option HistoryRecord) (content : Str) :
    List StoredRecord :=
  (lines content).filterMap (read_line deser)

/-- `HistoryStore::append` on a single location, single process: one
serialized record plus a newline is appended to the file content.
serde-json serialization is abstracted by `ser`. -/
def append (ser : HistoryRecord → Str) (content : Str) (record : HistoryRecord) :
    Str :=
  content ++ ser record ++ ['\n']

end Rt.History

namespace Rt

/-- `tasks.rs` `struct TaskItem`. -/
structure TaskItem where
  name : Str
  description : Option Str
deriving DecidableEq

end Rt

namespace Rt.Justfile

/-- One iteration of the loop in `parser/justfile.rs` `parse` (the `just`
listing-output dialect); recursion over the remaining lines. -/
def parse_loop : List Str → List TaskItem
  | [] => []
  | rawLine :: rest =>
    let line := trim rawLine
    if line.isEmpty then parse_loop rest
    else if startsWithStr (str "Available") line = true ∨
        startsWithStr (str "Recipes") line = true then parse_loop rest
    else
      let ld :=
        match splitOnceChar '#' line with
        | some (left, desc) => (trim left, some (trim desc))
        | none => (line, none)
      let name := trim (((splitWS ld.1).headD []))
      if name.isEmpty then parse_loop rest
      else
        ⟨name,
          match ld.2 with
          | some d => if d.isEmpty then none else some d
          | none => none⟩ :: parse_loop rest

/-- `parser/justfile.rs` `parse`. -/
def parse (output : Str) : List TaskItem := parse_loop (lines output)

end Rt.Justfile

namespace Rt.Taskfile

/-- One iteration of the loop in `parser/taskfile.rs` `parse`. -/
def parse_loop : List Str → List TaskItem
  | [] => []
  | rawLine :: rest =>
    let line := trimStart rawLine
    if line.isEmpty then parse_loop rest
    else if startsWithStr (str "task:") line = true ∨
        startsWithStr (str "Available") line = true then parse_loop rest
    else
      let line2 :=
        match stripPrefixStr (str "* ") line with
        | some stripped => stripped
        | none =>
          match stripPrefixStr (str "- ") line with
          | some stripped => stripped
          | none => line
      let nd :=
        match splitOnceChar ':' line2 with
        | some (n, d) => (trim n, some (trim d))
        | none => (trim line2, none)
      if nd.1.isEmpty then parse_loop rest
      else
        ⟨nd.1,
          match nd.2 with
          | some d => if d.isEmpty then none else some d
          | none => none⟩ :: parse_loop rest

/-- `parser/taskfile.rs` `parse`. -/
def parse (output : Str) : List TaskItem := parse_loop (lines output)

end Rt.Taskfile

namespace Rt.CargoMake

/-- One iteration of the loop in `parser/cargo_make.rs` `parse`. -/
def parse_loop : List Str → List TaskItem
  | [] => []
  | rawLine :: rest =>
    let line := trim rawLine
    if line.isEmpty then parse_loop rest
    else if line.getLast? = some ':' ∨ startsWithStr (str "Available") line = true ∨
        startsWithStr (str "Tasks") line = true then parse_loop rest
    else
      let nd :=
        match splitOnceBy isWS line with
        | some (a, b) => (trim a, some b)
        | none => (trim line, none)
      if nd.1.isEmpty then parse_loop rest
      else
        ⟨nd.1,
          match nd.2 with
          | some d =>
            let d2 := trim d
            if d2.isEmpty then none else some d2
          | none => none⟩ :: parse_loop rest

/-- `parser/cargo_make.rs` `parse`. -/
def parse (output : Str) : List TaskItem := parse_loop (lines output)

end Rt.CargoMake

namespace Rt.Makefile

/-- `parser/makefile.rs` `is_make_target_name`. -/
def is_make_target_name (name : Str) : Bool :=
  !name.isEmpty
    && !(startsWithStr (str ".") name)
    && !(containsChar name '%')
    && !(containsChar name '$')
    && !(containsChar name '=')
    && decide (name ≠ str "Makefile")
    && decide (name ≠ str "makefile")
    && decide (name ≠ str "GNUmakefile")

/-- `parser/makefile.rs` `parse_comment_line`. -/
def parse_comment_line (line : Str) : Option Str :=
  let comment := trim (trimStartMatches '#' line)
  if comment.isEmpty then none
  else if startsWithStr (str "Files") comment = true ∨
      startsWithStr (str "Finished") comment = true ∨
      startsWithStr (str "Not a target") comment = true ∨
      comment.getLast? = some ':' then none
  else some comment

/-- Lookup in the `BTreeMap` model (an association list kept sorted by
`charsCmp` on keys). -/
def btLookup {α : Type} : List (Str × α) → Str → Option α
  | [], _ => none
  | (k, v) :: rest, key => if k = key then some v else btLookup rest key

/-- `BTreeMap::insert` (replace an existing binding). -/
def btInsert {α : Type} : List (Str × α) → Str → α → List (Str × α)
  | [], k, v => [(k, v)]
  | (k', v') :: rest, k, v =>
    if charsCmp k k' = .lt then (k, v) :: (k', v') :: rest
    else if charsCmp k k' = .eq then (k, v) :: rest
    else (k', v') :: btInsert rest k v

/-- `BTreeMap::entry(k).or_insert(None)` (keep an existing binding). -/
def btEntryOrInsertNone : List (Str × Option Str) → Str → List (Str × Option Str)
  | [], k => [(k, none)]
  | (k', v') :: rest, k =>
    if charsCmp k k' = .lt then (k, none) :: (k', v') :: rest
    else if charsCmp k k' = .eq then (k', v') :: rest
    else (k', v') :: btEntryOrInsertNone rest k

/-- The main loop of `parser/makefile.rs` `parse_with_makefile_source`
(state: `in_files`, the `tasks` B-tree map, `pending_desc`; `# Finished`
breaks out of the loop). -/
def parse_dump_loop : List Str → Bool → List (Str × Option Str) → Option Str →
    List (Str × Option Str)
  | [], _, tasks, _ => tasks
  | rawLine :: rest, in_files, tasks, pending_desc =>
    let line := trimEnd rawLine
    if line.isEmpty then parse_dump_loop rest in_files tasks none
    else
      let trimmed := trimStart line
      if startsWithStr (str "# Files") trimmed then parse_dump_loop rest true tasks none
      else if startsWithStr (str "# Finished") trimmed then tasks
      else
        match stripPrefixStr (str ".PHONY:") trimmed with
        | some rest2 =>
          parse_dump_loop rest in_files
            ((splitWS rest2).foldl (fun m name => btEntryOrInsertNone m name) tasks) none
        | none =>
          if in_files = false then parse_dump_loop rest in_files tasks none
          else if trimmed.head? = some '#' then
            parse_dump_loop rest in_files tasks (parse_comment_line trimmed)
          else if line.head? = some '\t' ∨ line.head? = some ' ' then
            parse_dump_loop rest in_files tasks none
          else
            match splitOnceChar ':' trimmed with
            | none => parse_dump_loop rest in_files tasks pending_desc
            | some (target, _) =>
              let name := trim target
              if is_make_target_name name = false then
                parse_dump_loop rest in_files tasks none
              else
                let inline_desc :=
                  match (splitOnceChar ':' trimmed).bind
                      (fun p => splitOnceChar '#' p.2) with
                  | some p =>
                    let d := trim p.2
                    if d.isEmpty then none else some d
                  | none => none
                let description :=
                  match inline_desc with
                  | some d => some d
                  | none => pending_desc
                match description with
                | some _ =>
                  parse_dump_loop rest in_files (btInsert tasks name description) none
                | none =>
                  parse_dump_loop rest in_files (btEntryOrInsertNone tasks name) none

/-- The loop of `parser/makefile.rs` `parse_makefile_descriptions`. -/
def parse_descriptions_loop : List Str → Option Str → List (Str × Str) →
    List (Str × Str)
  | [], _, descriptions => descriptions
  | rawLine :: rest, pending_desc, descriptions =>
    let line := trimEnd rawLine
    if line.isEmpty then parse_descriptions_loop rest none descriptions
    else
      let trimmed := trimStart line
      if trimmed.head? = some '#' then
        parse_descriptions_loop rest (parse_comment_line trimmed) descriptions
      else if line.head? = some '\t' ∨ line.head? = some ' ' then
        parse_descriptions_loop rest none descriptions
      else
        match splitOnceChar ':' trimmed with
        | none => parse_descriptions_loop rest none descriptions
        | some (target, rest2) =>
          if startsWithStr (str "=") (trimStart rest2) then
            parse_descriptions_loop rest none descriptions
          else
            let target_names :=
              ((splitWS target).map trim).filter (fun n => is_make_target_name n)
            if target_names.isEmpty then parse_descriptions_loop rest none descriptions
            else
              let inline_desc :=
                match (splitOnceChar ':' trimmed).bind
                    (fun p => splitOnceChar '#' p.2) with
                | some p =>
                  let d := trim p.2
                  if d.isEmpty then none else some d
                | none => none
              let description :=
                match inline_desc with
                | some d => some d
                | none => pending_desc
              match description with
              | some d =>
                parse_descriptions_loop rest none
                  (target_names.foldl (fun m tn => btInsert m tn d) descriptions)
              | none => parse_descriptions_loop rest none descriptions

/-- `parser/makefile.rs` `parse_makefile_descriptions`. -/
def parse_makefile_descriptions (source : Str) : List (Str × Str) :=
  parse_descriptions_loop (lines source) none []

/-- `parser/makefile.rs` `parse_with_makefile_source`. -/
def parse_with_makefile_source (output : Str) (makefile_source : Option Str) :
    List TaskItem :=
  let has_files_section :=
    (lines output).any (fun line => startsWithStr (str "# Files") (trimStart line))
  let in_files := !has_files_section
  let tasks := parse_dump_loop (lines output) in_files [] none
  let tasks :=
    match makefile_source with
    | some source =>
      let descriptions := parse_makefile_descriptions source
      tasks.map (fun kv : Str × Option Str =>
        match kv.2 with
        | none => (kv.1, btLookup descriptions kv.1)
        | some d => (kv.1, some d))
    | none => tasks
  tasks.map (fun kv : Str × Option Str => ⟨kv.1, kv.2⟩)

end Rt.Makefile

namespace Rt

/-- `usize::MAX` on the 64-bit targets the code runs on. -/
def USIZE_MAX : Nat := 2 ^ 64 - 1

/-- Rust `usize::saturating_add(1)`. -/
def saturating_add_one (n : Nat) : Nat := min (n + 1) USIZE_MAX

/-- Association-list lookup, modelling `HashMap::get`. -/
def alookup {κ α : Type} [DecidableEq κ] : List (κ × α) → κ → Option α
  | [], _ => none
  | (k, v) :: rest, key => if k = key then some v else alookup rest key

/-- Association-list insert-or-replace, modelling `HashMap::insert` (the
position of a replaced binding is irrelevant: the final catalog is sorted
by insertion order before emission). -/
def ainsert {κ α : Type} [DecidableEq κ] : List (κ × α) → κ → α → List (κ × α)
  | [], k, v => [(k, v)]
  | (k', v') :: rest, k, v =>
    if k' = k then (k, v) :: rest else (k', v') :: ainsert rest k v

end Rt

namespace Rt.Justfile

/-- `parser/justfile.rs` `struct ImportSpec`. -/
structure ImportSpec where
  raw : Str
  optional : Bool
deriving DecidableEq

/-- `parser/justfile.rs` `struct ParsedRecipe`. -/
structure ParsedRecipe where
  name : Str
  description : Option Str
deriving DecidableEq

/-- `parser/justfile.rs` `struct ParsedFile`. -/
structure ParsedFile where
  imports : List ImportSpec
  recipes : List ParsedRecipe
deriving DecidableEq

/-- `parser/justfile.rs` `struct TaskEntry`. -/
structure TaskEntry where
  item : TaskItem
  depth : Nat
  order : Nat
deriving DecidableEq

/-- `parser/justfile.rs` `struct ParseState`; the `HashMap` is an
association list with unique keys. -/
structure ParseState where
  order : Nat
  items : List (Str × TaskEntry)
deriving DecidableEq

/-- `ParseState::new`. -/
def ParseState.new : ParseState := ⟨0, []⟩

/-- `ParseState::insert`. -/
def ParseState.insert (st : ParseState) (item : TaskItem) (depth : Nat) : ParseState :=
  let order := st.order
  let st2 : ParseState := { st with order := saturating_add_one st.order }
  let should_replace : Bool :=
    match alookup st2.items item.name with
    | none => true
    | some existing => decide (depth < existing.depth ∨ depth = existing.depth)
  if should_replace then
    { st2 with items := ainsert st2.items item.name ⟨item, depth, order⟩ }
  else st2

/-- The common tail of `parse_import_line` after the keyword has been
stripped (`optional` records whether it was `import?`). -/
def parse_import_rest (optional : Bool) (rest0 : Str) : Option ImportSpec :=
  let rest := trimStart rest0
  match rest with
  | [] => none
  | quote :: _ =>
    if quote ≠ squoteChar ∧ quote ≠ '"' then none
    else
      match (rest.drop 1).findIdx? (fun c => c = quote) with
      | none => none
      | some endIdx =>
        let path := (rest.drop 1).take endIdx
        if path.isEmpty then none else some ⟨path, optional⟩

/-- `parser/justfile.rs` `parse_import_line`. -/
def parse_import_line (line : Str) : Option ImportSpec :=
  match stripPrefixStr (str "import?") line with
  | some rest => parse_import_rest true rest
  | none =>
    match stripPrefixStr (str "import") line with
    | some rest => parse_import_rest false rest
    | none => none

/-- `parser/justfile.rs` `parse_comment_line`. -/
def parse_comment_line (line : Str) : Option Str :=
  let comment := trim (trimStartMatches '#' line)
  if comment.isEmpty then none else some comment

/-- `parser/justfile.rs` `parse_recipe_line`. -/
def parse_recipe_line (line : Str) (pending_desc : Option Str) : Option ParsedRecipe :=
  let li :=
    match splitOnceChar '#' line with
    | some (left, desc) => (trimEnd left, some (trim desc))
    | none => (line, none)
  if containsSub li.1 (str ":=") then none
  else
    match splitOnceChar ':' li.1 with
    | none => none
    | some (before_colon, _) =>
      match (splitWS before_colon).head? with
      | none => none
      | some name0 =>
        let name := trim name0
        if name.isEmpty then none
        else
          some ⟨name,
            match li.2 with
            | some d => if d.isEmpty then pending_desc else some d
            | none => pending_desc⟩

/-- The line loop of `parser/justfile.rs` `parse_justfile_contents`
(state: `pending_desc`). -/
def parse_justfile_contents_loop : List Str → Option Str → ParsedFile
  | [], _ => ⟨[], []⟩
  | raw_line :: rest, pending_desc =>
    let line := trimEnd raw_line
    if line.isEmpty then parse_justfile_contents_loop rest none
    else
      let is_indented :=
        match line.head? with
        | some c => isWS c
        | none => false
      let trimmed := trimStart line
      if is_indented then parse_justfile_contents_loop rest none
      else
        match parse_import_line trimmed with
        | some imp =>
          let r := parse_justfile_contents_loop rest none
          ⟨imp :: r.imports, r.recipes⟩
        | none =>
          if trimmed.head? = some '#' then
            parse_justfile_contents_loop rest (parse_comment_line trimmed)
          else
            match parse_recipe_line trimmed pending_desc with
            | some recipe =>
              let r := parse_justfile_contents_loop rest none
              ⟨r.imports, recipe :: r.recipes⟩
            | none => parse_justfile_contents_loop rest none

/-- `parser/justfile.rs` `parse_justfile_contents`. -/
def parse_justfile_contents (contents : Str) : ParsedFile :=
  parse_justfile_contents_loop (lines contents) none

/-- The errors import resolution can report: a missing non-optional
file, a read failure (`read_to_string`), and — an artifact of the fuel
embedding only — fuel exhaustion, which adequate fuel never reaches. -/
inductive ResolveError
  | importNotFound (path : Path)
  | readError (path : Path)
  | outOfFuel
deriving DecidableEq

/-- The recipe-recording loop at the end of `parse_file`. -/
def insert_recipes (state : ParseState) (recipes : List ParsedRecipe) (depth : Nat) :
    ParseState :=
  recipes.foldl (fun st recipe => st.insert ⟨recipe.name, recipe.description⟩ depth) state

/-- `parser/justfile.rs` `parse_file`.  The file system is the association
list `fs` (a present entry is a readable file with those contents);
`resolve` abstracts `resolve_import_path` (OS path joining and `~`
expansion) and `normalize` abstracts `normalize_path` (canonicalization).
Recursion is fuelled (structurally, so that concrete runs reduce);
`justfileFuel` below always suffices.  The `for import in
parsed.imports.iter().rev()` loop with early `?`-return is the fold below:
an error value is absorbed by every later step, giving the same result as
returning early. -/
def parse_file (fs : List (Path × Str)) (resolve : Path → Str → Path)
    (normalize : Path → Path) :
    Nat → Path → Nat → ParseState → List Path → Except ResolveError ParseState
  | 0, _, _, _, _ => .error .outOfFuel
  | fuel + 1, path, depth, state, stack =>
    let normalized := normalize path
    if normalized ∈ stack then .ok state
    else
      match alookup fs path with
      | none => .error (.readError path)
      | some contents =>
        let parsed := parse_justfile_contents contents
        let stack2 := stack ++ [normalized]
        let afterImports : Except ResolveError ParseState :=
          parsed.imports.reverse.foldl
            (fun (acc : Except ResolveError ParseState) imp =>
              match acc with
              | .error e => .error e
              | .ok st =>
                let resolved := resolve path imp.raw
                if alookup fs resolved = none then
                  if imp.optional then .ok st
                  else .error (.importNotFound resolved)
                else
                  parse_file fs resolve normalize fuel resolved
                    (saturating_add_one depth) st stack2)
            (.ok state)
        match afterImports with
        | .error e => .error e
        | .ok state2 => .ok (insert_recipes state2 parsed.recipes depth)

/-- One step of the import loop of `parse_file`, named for the proofs
(definitionally equal to the lambda in `parse_file`). -/
def import_step (fs : List (Path × Str)) (resolve : Path → Str → Path)
    (normalize : Path → Path) (fuel : Nat) (path : Path) (depth : Nat)
    (stack2 : List Path) (acc : Except ResolveError ParseState)
    (imp : ImportSpec) : Except ResolveError ParseState :=
  match acc with
  | .error e => .error e
  | .ok st =>
    let resolved := resolve path imp.raw
    if alookup fs resolved = none then
      if imp.optional then .ok st
      else .error (.importNotFound resolved)
    else
      parse_file fs resolve normalize fuel resolved (saturating_add_one depth) st stack2

/-- Fuel sufficient for any traversal of `fs`: one more than the number of
distinct normalized paths in its domain. -/
def justfileFuel (fs : List (Path × Str)) (normalize : Path → Path) : Nat :=
  ((fs.map (fun e => normalize e.1)).dedup).length + 1

/-- The emission tail of `parse_with_imports`: collect the surviving
entries, sort by insertion order (`sort_by_key(order)`, modelled by the
stable `insertionSort`), and project the task items. -/
def finalize (state : ParseState) : List TaskItem :=
  (List.insertionSort (fun a b : TaskEntry => a.order ≤ b.order)
    (state.items.map Prod.snd)).map TaskEntry.item

/-- `parser/justfile.rs` `parse_with_imports`. -/
def parse_with_imports (fs : List (Path × Str)) (resolve : Path → Str → Path)
    (normalize : Path → Path) (path : Path) : Except ResolveError (List TaskItem) :=
  match parse_file fs resolve normalize (justfileFuel fs normalize) path 0
      ParseState.new [] with
  | .error e => .error e
  | .ok state => .ok (finalize state)

/-- The insertion sequence semantics of `ParseState`: run a list of
(task, depth) insertions from the fresh state. -/
def runInserts (l : List (TaskItem × Nat)) : ParseState :=
  l.foldl (fun st p => st.insert p.1 p.2) ParseState.new

/-- Specification of the surviving catalog entry for name `n` after the
insertion sequence `l`, following the spec's precedence rule: the entry was
inserted at some position (its `order`), it has the smallest depth among
all insertions of that name — no earlier same-name insertion is strictly
shallower and every later same-name insertion is strictly deeper — so ties
at equal depth are broken by the later insertion winning. -/
def SurvivingEntry (l : List (TaskItem × Nat)) (n : Str) (e : TaskEntry) : Prop :=
  ∃ l₁ l₂, l = l₁ ++ (e.item, e.depth) :: l₂ ∧ e.order = l₁.length ∧
    e.item.name = n ∧ (∀ p ∈ l₁, p.1.name = n → e.depth ≤ p.2) ∧
    (∀ p ∈ l₂, p.1.name = n → e.depth < p.2)

/-- The insertion sequence contributed by one recipe list at one depth. -/
def insList (recipes : List ParsedRecipe) (depth : Nat) : List (TaskItem × Nat) :=
  recipes.map (fun r => ((⟨r.name, r.description⟩ : TaskItem), depth))

/-- The state invariant import resolution maintains: catalog keys are
distinct and every entry is stored under its own task name. -/
def GoodState (st : ParseState) : Prop :=
  (st.items.map Prod.fst).Nodup ∧ ∀ kv ∈ st.items, kv.2.item.name = kv.1

/-- A three-file file system: the root declares two imports, `a` then `b`
(in that order), and both imported files define the task `x` (with
distinct descriptions `A` and `B`). -/
def fsC3 : List (Path × Str) :=
  [("root", str "import \"a\"\nimport \"b\"\nroot:\n"),
   ("a", str "x: # A\n"),
   ("b", str "x: # B\n")]

/-- The import-path resolver used with the literal file systems here: the
raw import string is the path. -/
def rawResolve : Path → Str → Path :=
  fun _ raw => String.mk raw

/-- A two-file file system with an import cycle: `a` imports `b` and
defines `x`, `b` imports `a` back and defines `y`. -/
def fsC9 : List (Path × Str) :=
  [("a", str "import \"b\"\nx:\n"), ("b", str "import \"a\"\ny:\n")]

instance : IsTotal TaskEntry (fun a b => a.order ≤ b.order) :=
  ⟨fun a b => Nat.le_total a.order b.order⟩

instance : IsTrans TaskEntry (fun a b => a.order ≤ b.order) :=
  ⟨fun _ _ _ => Nat.le_trans⟩

end Rt.Justfile

-- ········ end of definitions; theorems follow ········

namespace Rt.TaskArgs

theorem top_level_quote_eq_none {st : ParseState} (h : st.top_level = true) :
    st.quote = none := by
  unfold ParseState.top_level at h
  simp only [Bool.and_eq_true] at h
  exact Option.isNone_iff_eq_none.mp h.1.1.1

theorem advance_state_ws {st : ParseState} (hq : st.quote = none) {c : Char}
    (hc : isWS c = true) : advance_state st c = st := by
  have hc' : ((c = ' ' ∨ c = '\t') ∨ c = '\r') ∨ c = '\n' := by
    simpa [isWS, Char.isWhitespace] using hc
  rcases st with ⟨q, esc, p, b, br⟩
  simp only at hq
  subst hq
  rcases hc' with ((h | h) | h) | h <;> subst h <;> rfl

theorem take_append_one (pre : Str) (c : Char) (rest : Str) :
    (pre ++ c :: rest).take (pre.length + 1) = pre ++ [c] := by
  induction pre with
  | nil => rfl
  | cons p pre ih => simpa [List.take_succ_cons] using ih

theorem drop_append_single {s : Nat} {pre : Str} (h : s ≤ pre.length) (c : Char) :
    (pre ++ [c]).drop s = pre.drop s ++ [c] := by
  induction pre generalizing s with
  | nil =>
    have : s = 0 := Nat.le_zero.mp h
    subst this
    rfl
  | cons p pre ih =>
    cases s with
    | zero => rfl
    | succ s => simpa using ih (Nat.le_of_succ_le_succ h)

theorem stateAt_zero (input : Str) : stateAt input 0 = .init := rfl

theorem stateAt_append (pre : Str) (c : Char) (rest : Str) :
    stateAt (pre ++ c :: rest) (pre.length + 1) =
      advance_state (stateAt (pre ++ c :: rest) pre.length) c := by
  unfold stateAt
  rw [take_append_one, List.take_left, List.foldl_append]
  rfl

theorem find_top_level_colon_aux_sound :
    ∀ (s : Str) (state : ParseState) (idx j : Nat),
      find_top_level_colon_aux state idx s = some j →
      ∃ k, ∃ hk : k < s.length, j = idx + k ∧ s.get ⟨k, hk⟩ = ':' ∧
        ((s.take k).foldl advance_state state).top_level = true := by
  intro s
  induction s with
  | nil => intro state idx j h; simp [find_top_level_colon_aux] at h
  | cons c rest ih =>
    intro state idx j h
    rw [find_top_level_colon_aux] at h
    split at h
    next hcond =>
      obtain rfl : idx = j := by injection h
      exact ⟨0, by simp, by omega, hcond.2, by simpa using hcond.1⟩
    next hcond =>
      obtain ⟨k, hk, hj, hget, htop⟩ := ih _ _ _ h
      exact ⟨k + 1, by simpa using Nat.succ_lt_succ hk, by omega, by simpa using hget,
        by simpa [List.take_succ_cons] using htop⟩

theorem find_top_level_colon_sound {input : Str} {i : Nat}
    (h : find_top_level_colon input = some i) :
    ∃ hk : i < input.length, input.get ⟨i, hk⟩ = ':' ∧
      (stateAt input i).top_level = true := by
  obtain ⟨k, hk, hik, hget, htop⟩ := find_top_level_colon_aux_sound input .init 0 i h
  have : i = k := by omega
  subst this
  exact ⟨hk, hget, htop⟩

theorem has_top_level_char_aux_sound :
    ∀ (s : Str) (state : ParseState) (target : Char),
      has_top_level_char_aux state target s = true →
      ∃ k, ∃ hk : k < s.length, s.get ⟨k, hk⟩ = target ∧
        ((s.take k).foldl advance_state state).top_level = true := by
  intro s
  induction s with
  | nil => intro state target h; simp [has_top_level_char_aux] at h
  | cons c rest ih =>
    intro state target h
    rw [has_top_level_char_aux] at h
    split at h
    next hcond =>
      refine ⟨0, by simp, hcond.2, by simpa using hcond.1⟩
    next hcond =>
      obtain ⟨k, hk, hget, htop⟩ := ih _ _ h
      exact ⟨k + 1, by simpa using Nat.succ_lt_succ hk, by simpa using hget,
        by simpa [List.take_succ_cons] using htop⟩

theorem has_top_level_char_sound {input : Str} {target : Char}
    (h : has_top_level_char input target = true) :
    ∃ k, ∃ hk : k < input.length, input.get ⟨k, hk⟩ = target ∧
      (stateAt input k).top_level = true :=
  has_top_level_char_aux_sound input .init target h

theorem split_aux_join (input : Str) :
    ∀ (rest pre : Str) (start : Option Nat),
      input = pre ++ rest →
      (∀ s, start = some s → s ≤ pre.length) →
      (split_top_level_whitespace_aux input (stateAt input pre.length)
          pre.length start rest).flatten =
        (match start with | some s => pre.drop s | none => []) ++
          keepAux input pre.length rest := by
  intro rest
  induction rest with
  | nil =>
    intro pre start hin hstart
    cases start with
    | none => simp [split_top_level_whitespace_aux, keepAux]
    | some s =>
      simp only [split_top_level_whitespace_aux, keepAux, List.flatten_cons,
        List.flatten_nil, List.append_nil, hin]
  | cons c rest' ih =>
    intro pre start hin hstart
    have hsucc : stateAt input (pre.length + 1) =
        advance_state (stateAt input pre.length) c := by
      rw [hin]; exact stateAt_append pre c rest'
    have hin' : input = (pre ++ [c]) ++ rest' := by simp [hin]
    have hlen : (pre ++ [c]).length = pre.length + 1 := by simp
    by_cases hc : (stateAt input pre.length).top_level = true ∧ isWS c = true
    · have hq : (stateAt input pre.length).quote = none := top_level_quote_eq_none hc.1
      have hstay : stateAt input (pre.length + 1) = stateAt input pre.length := by
        rw [hsucc, advance_state_ws hq hc.2]
      have hkeep : keepAux input pre.length (c :: rest') =
          keepAux input (pre.length + 1) rest' := by
        rw [keepAux, if_pos hc]
      have hIH := ih (pre ++ [c]) none hin' (by simp)
      rw [hlen, hstay] at hIH
      cases start with
      | none =>
        have hstep : split_top_level_whitespace_aux input (stateAt input pre.length)
            pre.length none (c :: rest') =
            split_top_level_whitespace_aux input (stateAt input pre.length)
              (pre.length + 1) none rest' := by
          simp only [split_top_level_whitespace_aux]
          rw [if_pos hc]
        rw [hstep, hkeep]
        simpa using hIH
      | some s =>
        have hstep : split_top_level_whitespace_aux input (stateAt input pre.length)
            pre.length (some s) (c :: rest') =
            slice input s pre.length :: split_top_level_whitespace_aux input
              (stateAt input pre.length) (pre.length + 1) none rest' := by
          simp only [split_top_level_whitespace_aux]
          rw [if_pos hc]
        rw [hstep, List.flatten_cons, hIH, hkeep]
        have hslice : slice input s pre.length = pre.drop s := by
          rw [slice, hin, List.take_left]
        rw [hslice]
        simp
    · have hbound : ∀ s, (some (start.getD pre.length) = some s) →
          s ≤ (pre ++ [c]).length := by
        intro s hs
        cases hs
        cases start with
        | none => simp
        | some s₀ =>
          have := hstart s₀ rfl
          simp only [Option.getD_some]
          simp only [List.length_append, List.length_cons, List.length_nil]
          omega
      have hIH := ih (pre ++ [c]) (some (start.getD pre.length)) hin' hbound
      rw [hlen, hsucc] at hIH
      have hstep : split_top_level_whitespace_aux input (stateAt input pre.length)
          pre.length start (c :: rest') =
          split_top_level_whitespace_aux input
            (advance_state (stateAt input pre.length) c) (pre.length + 1)
            (some (start.getD pre.length)) rest' := by
        simp only [split_top_level_whitespace_aux]
        rw [if_neg hc]
      rw [hstep, hIH]
      have hkeep : keepAux input pre.length (c :: rest') =
          c :: keepAux input (pre.length + 1) rest' := by
        rw [keepAux, if_neg hc]
      rw [hkeep]
      cases start with
      | none =>
        simp only [Option.getD_none]
        rw [List.drop_left' rfl]
        simp
      | some s =>
        simp only [Option.getD_some]
        rw [drop_append_single (hstart s rfl) c]
        simp

theorem split_top_level_whitespace_flatten (input : Str) :
    (split_top_level_whitespace input).flatten = keepAux input 0 input := by
  have := split_aux_join input input [] none rfl (by simp)
  simpa [split_top_level_whitespace, stateAt] using this

/-- C5: Default-value immunity of the argument tokenizer.  A colon,
whitespace, or `=` occurring inside quotes, backticks or open brackets is
never treated as a split point: `find_top_level_colon` only reports a colon
at a top-level scanner position, `has_top_level_char` only fires on a
character at a top-level position, and `split_top_level_whitespace` drops
exactly the whitespace at top-level positions (every other character
survives into the parts).  In particular, the header
`deploy ENV='prod:blue' TARGET:` with task name `deploy` yields exactly
`["TARGET"]`. -/
theorem claim_C5 :
    parse_required_from_just_header
        (str "deploy ENV=" ++ [squoteChar] ++ str "prod:blue" ++ [squoteChar] ++
          str " TARGET:") (str "deploy") = some [str "TARGET"]
    ∧ (∀ input i, find_top_level_colon input = some i →
        ∃ h : i < input.length, input.get ⟨i, h⟩ = ':' ∧
          (stateAt input i).top_level = true)
    ∧ (∀ input target, has_top_level_char input target = true →
        ∃ k, ∃ h : k < input.length, input.get ⟨k, h⟩ = target ∧
          (stateAt input k).top_level = true)
    ∧ (∀ input, (split_top_level_whitespace input).flatten = keepAux input 0 input) := by
  refine ⟨by decide, ?_, ?_, ?_⟩
  · intro input i h
    exact find_top_level_colon_sound h
  · intro input target h
    exact has_top_level_char_sound h
  · exact split_top_level_whitespace_flatten

/-- Witness for C5: the implications applied at concrete inputs. -/
theorem claim_C5_witness :
    (∃ h : 1 < (str "a:b").length, (str "a:b").get ⟨1, h⟩ = ':' ∧
      (stateAt (str "a:b") 1).top_level = true)
    ∧ (∃ k, ∃ h : k < (str "x=y").length, (str "x=y").get ⟨k, h⟩ = '=' ∧
      (stateAt (str "x=y") k).top_level = true) :=
  ⟨claim_C5.2.1 (str "a:b") 1 (by decide),
   claim_C5.2.2.1 (str "x=y") '=' (by decide)⟩

/-- C6 counterexample: for the header `@build:` and requested name `build`,
the first whitespace-delimited token is `@build`, which is not equal to
`build`, yet `parse_required_from_just_header` reports a match (with zero
required arguments) because it strips leading `@` before comparing. -/
theorem counterexample_C6 :
    specFirstHeaderToken (str "@build:") = some (str "@build")
    ∧ str "@build" ≠ str "build"
    ∧ parse_required_from_just_header (str "@build:") (str "build") = some [] := by
  refine ⟨by decide, by decide, by decide⟩

/-- C6 (amended): if the first whitespace-delimited token of the header
(split with quote/bracket-aware `:` handling), after stripping leading `@`
characters, is not equal to the requested name, then
`parse_required_from_just_header` returns `none`, regardless of the rest of
the header; and a match with zero required arguments (`some []`) remains
distinguishable from no match (`none`). -/
theorem claim_C6 :
    (∀ line task,
      (∀ raw, specFirstHeaderToken line = some raw →
        trimStartMatches '@' raw ≠ task) →
      parse_required_from_just_header line task = none)
    ∧ parse_required_from_just_header (str "build:") (str "build") = some []
    ∧ parse_required_from_just_header (str "build:") (str "nope") = none := by
  refine ⟨?_, by decide, by decide⟩
  intro line task h
  simp only [parse_required_from_just_header]
  split
  next => rfl
  next h1 =>
    split
    next => rfl
    next h2 =>
      split
      next => rfl
      next header_end hfind =>
        split
        next => rfl
        next h3 =>
          split
          next => rfl
          next h4 =>
            split
            next => rfl
            next raw_name hhead =>
              split
              next => rfl
              next h5 =>
                exfalso
                apply h raw_name ?_ (not_not.mp h5)
                simp only [specFirstHeaderToken, hfind, hhead]

/-- Witness for C6: the gating implication applied at a concrete header. -/
theorem claim_C6_witness :
    parse_required_from_just_header (str "x:") (str "y") = none := by
  apply claim_C6.1 (str "x:") (str "y")
  intro raw hr
  have h0 : specFirstHeaderToken (str "x:") = some (str "x") := by decide
  rw [h0] at hr
  cases hr
  decide

end Rt.TaskArgs

namespace Rt.TaskArgs

/-- C10: for every detection whose runner is not the justfile runner,
`required_args_for_task` always succeeds with the empty list, independently
of the file-reading function — so it never reads any file and a caller can
never be prompted for required arguments of a non-justfile task. -/
theorem claim_C10 :
    ∀ (readFile : Path → Except IOError Str) (detection : Detection) (task : Str),
      detection.runner ≠ Runner.Justfile →
      required_args_for_task readFile detection task = .ok [] := by
  intro readFile detection task h
  unfold required_args_for_task
  cases hr : detection.runner
  case Justfile => exact absurd hr h
  all_goals rfl

/-- Witness for C10: a make detection with an always-failing reader. -/
theorem claim_C10_witness :
    required_args_for_task (fun _ => .error ⟨.NotFound, "unreadable"⟩)
      ⟨Runner.Makefile, "Makefile"⟩ (str "build") = .ok [] :=
  claim_C10 _ _ _ (by decide)

end Rt.TaskArgs

namespace Rt.History

theorem append_loop_ok_iff (appendAt : Path → Except IOError Unit) :
    ∀ (candidates : List Path) (lastError : Option IOError),
      append_candidates_loop appendAt candidates lastError = .ok () ↔
        ∃ i, ∃ hi : i < candidates.length,
          appendAt (candidates.get ⟨i, hi⟩) = .ok () ∧
          ∀ j (hj : j < candidates.length), j < i →
            ∃ e, appendAt (candidates.get ⟨j, hj⟩) = .error e ∧
              e.kind ≠ .WouldBlock := by
  intro candidates
  induction candidates with
  | nil =>
    intro lastError
    simp [append_candidates_loop]
  | cons p rest ih =>
    intro lastError
    cases hp : appendAt p with
    | ok u =>
      cases u
      have hstep : append_candidates_loop appendAt (p :: rest) lastError = .ok () := by
        rw [append_candidates_loop, hp]
      rw [hstep]
      constructor
      · intro _
        exact ⟨0, by simp, by simpa using hp, fun j hj hj0 => absurd hj0 (Nat.not_lt_zero j)⟩
      · intro _
        rfl
    | error e =>
      have hstep : append_candidates_loop appendAt (p :: rest) lastError =
          if e.kind = .WouldBlock then .error e
          else append_candidates_loop appendAt rest (some e) := by
        rw [append_candidates_loop, hp]
      rw [hstep]
      by_cases hk : e.kind = IOErrorKind.WouldBlock
      · rw [if_pos hk]
        constructor
        · intro h
          cases h
        · rintro ⟨i, hi, hok, hprev⟩
          cases i with
          | zero =>
            have hok' : appendAt p = .ok () := hok
            rw [hp] at hok'
            cases hok'
          | succ i =>
            obtain ⟨e', he', hke'⟩ := hprev 0 (by simp) (Nat.succ_pos i)
            have he'' : appendAt p = .error e' := he'
            rw [hp] at he''
            cases he''
            exact absurd hk hke'
      · rw [if_neg hk]
        rw [ih (some e)]
        constructor
        · rintro ⟨i, hi, hok, hprev⟩
          refine ⟨i + 1, by simpa using Nat.succ_lt_succ hi, by simpa using hok, ?_⟩
          intro j hj hj1
          cases j with
          | zero => exact ⟨e, by simpa using hp, hk⟩
          | succ j =>
            obtain ⟨e', he', hke'⟩ := hprev j (by simpa using Nat.lt_of_succ_lt_succ hj)
              (Nat.lt_of_succ_lt_succ hj1)
            exact ⟨e', by simpa using he', hke'⟩
        · rintro ⟨i, hi, hok, hprev⟩
          cases i with
          | zero =>
            have hok' : appendAt p = .ok () := hok
            rw [hp] at hok'
            cases hok'
          | succ i =>
            refine ⟨i, by simpa using Nat.lt_of_succ_lt_succ hi, by simpa using hok, ?_⟩
            intro j hj hji
            obtain ⟨e', he', hke'⟩ := hprev (j + 1) (by simpa using Nat.succ_lt_succ hj)
              (Nat.succ_lt_succ hji)
            exact ⟨e', by simpa using he', hke'⟩

theorem append_loop_wouldblock (appendAt : Path → Except IOError Unit) :
    ∀ (pre : List Path) (p : Path) (post : List Path) (e : IOError)
      (lastError : Option IOError),
      (∀ q ∈ pre, ∃ eq, appendAt q = .error eq ∧ eq.kind ≠ .WouldBlock) →
      appendAt p = .error e → e.kind = .WouldBlock →
      append_candidates_loop appendAt (pre ++ p :: post) lastError = .error e := by
  intro pre
  induction pre with
  | nil =>
    intro p post e lastError _ hp hk
    have hstep : append_candidates_loop appendAt (p :: post) lastError =
        if e.kind = .WouldBlock then .error e
        else append_candidates_loop appendAt post (some e) := by
      rw [append_candidates_loop, hp]
    rw [List.nil_append, hstep, if_pos hk]
  | cons q pre ih =>
    intro p post e lastError hpre hp hk
    obtain ⟨eq, heq, hkq⟩ := hpre q (List.mem_cons_self q pre)
    have hstep : append_candidates_loop appendAt (q :: (pre ++ p :: post)) lastError =
        if eq.kind = .WouldBlock then .error eq
        else append_candidates_loop appendAt (pre ++ p :: post) (some eq) := by
      rw [append_candidates_loop, heq]
    rw [List.cons_append, hstep, if_neg hkq]
    exact ih p post e (some eq) (fun q' hq' => hpre q' (List.mem_cons_of_mem q hq')) hp hk

/-- C2 counterexample: with two candidate locations where the first append
fails with `WouldBlock` (advisory-lock contention) and the second would
succeed, `append_record_default` reports the `WouldBlock` error immediately
instead of trying the next candidate — so "lock failure tries the next
candidate / error only after every candidate failed" is false. -/
theorem counterexample_C2 :
    append_record_default
        (fun p => if p = "p1" then .error ⟨.WouldBlock, "locked"⟩ else .ok ())
        ["p1", "p2"] = .error ⟨.WouldBlock, "locked"⟩
    ∧ (fun p => if p = "p1" then (.error ⟨.WouldBlock, "locked"⟩ : Except IOError Unit)
        else .ok ()) "p2" = .ok () := by
  exact ⟨rfl, rfl⟩

/-- C2 (amended): a failed append is never silently dropped, but lock
contention short-circuits.  (1) `append_record_default` succeeds exactly
when some candidate append succeeds and every earlier candidate failed with
a non-`WouldBlock` error; in particular an error is reported whenever no
candidate succeeds.  (2) If the appends before `p` all fail with
non-`WouldBlock` errors and the append at `p` fails with `WouldBlock`
(advisory-lock acquisition failure), that error is returned immediately,
without trying the remaining candidates.  (3) If every candidate fails,
an error is reported to the caller. -/
theorem claim_C2 :
    (∀ (appendAt : Path → Except IOError Unit) (candidates : List Path),
      append_record_default appendAt candidates = .ok () ↔
        ∃ i, ∃ hi : i < candidates.length,
          appendAt (candidates.get ⟨i, hi⟩) = .ok () ∧
          ∀ j (hj : j < candidates.length), j < i →
            ∃ e, appendAt (candidates.get ⟨j, hj⟩) = .error e ∧
              e.kind ≠ .WouldBlock)
    ∧ (∀ (appendAt : Path → Except IOError Unit) (pre : List Path) (p : Path)
        (post : List Path) (e : IOError),
        (∀ q ∈ pre, ∃ eq, appendAt q = .error eq ∧ eq.kind ≠ .WouldBlock) →
        appendAt p = .error e → e.kind = .WouldBlock →
        append_record_default appendAt (pre ++ p :: post) = .error e)
    ∧ (∀ (appendAt : Path → Except IOError Unit) (candidates : List Path),
        (∀ q ∈ candidates, ∃ e, appendAt q = .error e) →
        ∃ e, append_record_default appendAt candidates = .error e) := by
  refine ⟨?_, ?_, ?_⟩
  · intro appendAt candidates
    exact append_loop_ok_iff appendAt candidates none
  · intro appendAt pre p post e hpre hp hk
    exact append_loop_wouldblock appendAt pre p post e none hpre hp hk
  · intro appendAt candidates hall
    cases hres : append_record_default appendAt candidates with
    | error e => exact ⟨e, rfl⟩
    | ok u =>
      cases u
      obtain ⟨i, hi, hok, -⟩ := (append_loop_ok_iff appendAt candidates none).mp hres
      obtain ⟨e, he⟩ := hall (candidates.get ⟨i, hi⟩) (candidates.get_mem _ _)
      rw [hok] at he
      cases he

/-- Witness for C2: the three parts applied at concrete candidate lists. -/
theorem claim_C2_witness :
    append_record_default (fun _ => .error ⟨.WouldBlock, "locked"⟩)
        ([] ++ "a" :: ["b"]) = .error ⟨.WouldBlock, "locked"⟩
    ∧ (∃ e, append_record_default (fun _ => .error ⟨.Other, "disk"⟩) ["q"] = .error e) :=
  ⟨claim_C2.2.1 _ [] "a" ["b"] ⟨.WouldBlock, "locked"⟩
      (fun q hq => absurd hq (List.not_mem_nil q)) rfl rfl,
   claim_C2.2.2 _ ["q"] (fun q _ => ⟨⟨.Other, "disk"⟩, rfl⟩)⟩

end Rt.History

namespace Rt.History

theorem charsCmp_swap : ∀ a b : Str, charsCmp b a = (charsCmp a b).swap := by
  intro a
  induction a with
  | nil => intro b; cases b <;> rfl
  | cons x as ih =>
    intro b
    cases b with
    | nil => rfl
    | cons y bs =>
      simp only [charsCmp]
      by_cases h1 : x.toNat < y.toNat
      · rw [if_neg (by omega), if_pos h1, if_pos h1]
        rfl
      · by_cases h2 : y.toNat < x.toNat
        · rw [if_pos h2, if_neg h1, if_pos h2]
          rfl
        · rw [if_neg h2, if_neg h1, if_neg h1, if_neg h2]
          exact ih bs

theorem charsCmp_le_trans :
    ∀ a b c : Str, charsCmp a b ≠ .gt → charsCmp b c ≠ .gt → charsCmp a c ≠ .gt := by
  intro a
  induction a with
  | nil =>
    intro b c _ _
    cases c <;> simp [charsCmp]
  | cons x as ih =>
    intro b c hab hbc
    cases b with
    | nil => simp [charsCmp] at hab
    | cons y bs =>
      cases c with
      | nil => simp [charsCmp] at hbc
      | cons z cs =>
        simp only [charsCmp] at hab hbc ⊢
        by_cases h1 : x.toNat < z.toNat
        · rw [if_pos h1]
          simp
        · rw [if_neg h1]
          by_cases h3 : x.toNat < y.toNat
          · exfalso
            by_cases h2 : z.toNat < x.toNat
            · have hzy : z.toNat < y.toNat := by omega
              rw [if_neg (by omega), if_pos hzy] at hbc
              exact hbc rfl
            · have hzy : z.toNat < y.toNat := by omega
              rw [if_neg (by omega), if_pos hzy] at hbc
              exact hbc rfl
          · by_cases h4 : y.toNat < x.toNat
            · rw [if_neg h3, if_pos h4] at hab
              exact absurd rfl hab
            · by_cases h2 : z.toNat < x.toNat
              · exfalso
                have hzy : z.toNat < y.toNat := by omega
                rw [if_neg (by omega), if_pos hzy] at hbc
                exact hbc rfl
              · rw [if_neg h2]
                rw [if_neg h3, if_neg h4] at hab
                rw [if_neg (by omega), if_neg (by omega)] at hbc
                exact ih bs cs hab hbc

theorem cmpOrd_ne_gt_iff {T : Type} [LinearOrder T] {x y : T} :
    (if x < y then Ordering.lt else if x = y then Ordering.eq else Ordering.gt) ≠ .gt
      ↔ x ≤ y := by
  split_ifs with h1 h2
  · simp [le_of_lt h1]
  · simp [le_of_eq h2]
  · refine iff_of_false (by simp) ?_
    intro hxy
    exact h2 (le_antisymm hxy (not_lt.mp h1))

theorem record_ts_cmp_trans {T : Type} [LinearOrder T] (parseTs : Str → Option T) :
    ∀ a b c : StoredRecord,
      record_ts_cmp parseTs a b ≠ .gt → record_ts_cmp parseTs b c ≠ .gt →
      record_ts_cmp parseTs a c ≠ .gt := by
  intro a b c hab hbc
  rcases hpa : parseTs a.record.ts with _ | x <;>
    rcases hpb : parseTs b.record.ts with _ | y <;>
      rcases hpc : parseTs c.record.ts with _ | z <;>
        simp only [record_ts_cmp, hpa, hpb, hpc] at hab hbc ⊢
  all_goals try exact absurd rfl hab
  all_goals try exact absurd rfl hbc
  all_goals try decide
  · exact charsCmp_le_trans _ _ _ hab hbc
  · rw [cmpOrd_ne_gt_iff] at hab hbc ⊢
    exact le_trans hab hbc

theorem record_ts_cmp_total {T : Type} [LinearOrder T] (parseTs : Str → Option T) :
    ∀ a b : StoredRecord,
      record_ts_cmp parseTs a b ≠ .gt ∨ record_ts_cmp parseTs b a ≠ .gt := by
  intro a b
  rcases hpa : parseTs a.record.ts with _ | x <;>
    rcases hpb : parseTs b.record.ts with _ | y <;>
      simp only [record_ts_cmp, hpa, hpb]
  · by_cases h : charsCmp a.record.ts b.record.ts = .gt
    · right
      rw [charsCmp_swap, h]
      decide
    · exact Or.inl h
  · right
    decide
  · left
    decide
  · rcases le_total x y with h | h
    · exact Or.inl (cmpOrd_ne_gt_iff.mpr h)
    · exact Or.inr (cmpOrd_ne_gt_iff.mpr h)

theorem read_paths_loop_fst (readStore : Path → Except IOError (List StoredRecord)) :
    ∀ (paths : List Path) (acc : List StoredRecord) (lastError : Option IOError),
      (read_paths_loop readStore paths acc lastError).1 =
        acc ++ ((paths.map readStore).filterMap Except.toOption).flatten := by
  intro paths
  induction paths with
  | nil => intro acc lastError; simp [read_paths_loop]
  | cons p rest ih =>
    intro acc lastError
    cases hp : readStore p with
    | ok records =>
      have hstep : read_paths_loop readStore (p :: rest) acc lastError =
          read_paths_loop readStore rest (acc ++ records) lastError := by
        rw [read_paths_loop, hp]
      rw [hstep, ih]
      simp [hp, Except.toOption]
    | error e =>
      have hstep : read_paths_loop readStore (p :: rest) acc lastError =
          read_paths_loop readStore rest acc (some e) := by
        rw [read_paths_loop, hp]
      rw [hstep, ih]
      simp [hp, Except.toOption]

/-- C7: merged ledger ordering.  Whenever `read_from_paths` succeeds, its
result is (1) sorted ascending under the timestamp comparator, (2) a
permutation of the concatenation of all successfully read locations, and
pairwise (3) no record with an unparseable timestamp ever precedes a record
with a parseable one, and (4) records with unparseable timestamps are
ordered among themselves by lexicographic comparison of the raw timestamp
strings — all of this for every order of the candidate locations. -/
theorem claim_C7 :
    ∀ (T : Type) [LinearOrder T] (parseTs : Str → Option T)
      (readStore : Path → Except IOError (List StoredRecord))
      (paths : List Path) (res : List StoredRecord),
      read_from_paths parseTs readStore paths = .ok res →
      List.Sorted (fun a b => record_ts_cmp parseTs a b ≠ .gt) res
      ∧ res.Perm (((paths.map readStore).filterMap Except.toOption).flatten)
      ∧ List.Pairwise
          (fun a b => parseTs a.record.ts = none → parseTs b.record.ts = none) res
      ∧ List.Pairwise
          (fun a b => parseTs a.record.ts = none → parseTs b.record.ts = none →
            charsCmp a.record.ts b.record.ts ≠ .gt) res := by
  intro T _ parseTs readStore paths res h
  simp only [read_from_paths] at h
  by_cases he : (read_paths_loop readStore paths [] none).1.isEmpty
  · rw [if_pos he] at h
    have hflat : ((paths.map readStore).filterMap Except.toOption).flatten = [] := by
      have := read_paths_loop_fst readStore paths [] none
      rw [List.isEmpty_iff] at he
      rw [he] at this
      exact this.symm.trans (List.nil_append _)
    cases hl : (read_paths_loop readStore paths [] none).2 with
    | some e => rw [hl] at h; cases h
    | none =>
      rw [hl] at h
      cases h
      refine ⟨by simp, by rw [hflat], by simp, by simp⟩
  · rw [if_neg he] at h
    cases h
    haveI hTr : IsTrans StoredRecord (fun a b => record_ts_cmp parseTs a b ≠ .gt) :=
      ⟨record_ts_cmp_trans parseTs⟩
    haveI hTo : IsTotal StoredRecord (fun a b => record_ts_cmp parseTs a b ≠ .gt) :=
      ⟨record_ts_cmp_total parseTs⟩
    have hsorted := List.sorted_insertionSort
      (fun a b => record_ts_cmp parseTs a b ≠ .gt)
      (read_paths_loop readStore paths [] none).1
    have hperm := List.perm_insertionSort
      (fun a b => record_ts_cmp parseTs a b ≠ .gt)
      (read_paths_loop readStore paths [] none).1
    refine ⟨hsorted, ?_, ?_, ?_⟩
    · have := read_paths_loop_fst readStore paths [] none
      rw [List.nil_append] at this
      exact hperm.trans (this ▸ List.Perm.refl _)
    · refine hsorted.imp ?_
      intro a b hab hpa
      by_cases hpb : parseTs b.record.ts = none
      · exact hpb
      · exfalso
        obtain ⟨y, hy⟩ := Option.ne_none_iff_exists'.mp hpb
        simp only [record_ts_cmp, hpa, hy] at hab
        exact hab rfl
    · refine hsorted.imp ?_
      intro a b hab hpa hpb
      simp only [record_ts_cmp, hpa, hpb] at hab
      exact hab

/-- Witness for C7: a two-location store with interleaved and unparseable
timestamps, read and merged concretely. -/
theorem claim_C7_witness :
    List.Sorted
      (fun a b =>
        record_ts_cmp (fun s => if s = [] then none else some (s.length : Int)) a b ≠ .gt)
      [⟨str "rb", ⟨1, str "a", str "b", str "w", 0, 0, none, none, none, none, none⟩⟩,
       ⟨str "ra", ⟨1, str "bb", str "a", str "w", 0, 0, none, none, none, none, none⟩⟩,
       ⟨str "rc", ⟨1, [], str "c", str "w", 0, 0, none, none, none, none, none⟩⟩] :=
  (claim_C7 Int (fun s => if s = [] then none else some (s.length : Int))
    (fun p => if p = "p"
      then .ok [⟨str "ra", ⟨1, str "bb", str "a", str "w", 0, 0, none, none, none, none, none⟩⟩,
                ⟨str "rc", ⟨1, [], str "c", str "w", 0, 0, none, none, none, none, none⟩⟩]
      else .ok [⟨str "rb", ⟨1, str "a", str "b", str "w", 0, 0, none, none, none, none, none⟩⟩])
    ["p", "q"] _ rfl).1

end Rt.History

namespace Rt.History

theorem splitLinesAux_ne_nil : ∀ s : Str, splitLinesAux s ≠ [] := by
  intro s
  cases s with
  | nil => simp [splitLinesAux]
  | cons c rest =>
    by_cases hc : c = '\n'
    · simp [splitLinesAux, hc]
    · simp only [splitLinesAux, if_neg hc]
      cases hr : splitLinesAux rest <;> simp

theorem splitLinesAux_eq_singleton : ∀ s : Str, splitLinesAux s = [[]] → s = [] := by
  intro s
  cases s with
  | nil => intro _; rfl
  | cons c rest =>
    intro h
    by_cases hc : c = '\n'
    · simp only [splitLinesAux, if_pos hc] at h
      injection h with h1 h2
      exact absurd h2 (splitLinesAux_ne_nil rest)
    · simp only [splitLinesAux, if_neg hc] at h
      cases hr : splitLinesAux rest with
      | nil => exact absurd hr (splitLinesAux_ne_nil rest)
      | cons p ps =>
        rw [hr] at h
        injection h with h1 h2
        simp at h1

theorem splitLinesAux_line_append :
    ∀ (line : Str), (∀ c ∈ line, c ≠ '\n') → ∀ (ys : Str),
      splitLinesAux (line ++ '\n' :: ys) = line :: splitLinesAux ys := by
  intro line
  induction line with
  | nil => intro _ ys; simp [splitLinesAux]
  | cons c cs ih =>
    intro hline ys
    have hc : c ≠ '\n' := hline c (List.mem_cons_self c cs)
    simp only [List.cons_append, splitLinesAux, if_neg hc, List.append_eq]
    rw [ih (fun c' hc' => hline c' (List.mem_cons_of_mem _ hc')) ys]

theorem getLast?_splitLinesAux :
    ∀ content : Str, (content = [] ∨ content.getLast? = some '\n') →
      (splitLinesAux content).getLast? = some [] := by
  intro content
  induction content with
  | nil => intro _; rfl
  | cons c cs ih =>
    intro hP
    have hP' : (c :: cs).getLast? = some '\n' := by
      rcases hP with h | h
      · exact absurd h (by simp)
      · exact h
    cases hcs : cs with
    | nil =>
      subst hcs
      have hc : c = '\n' := by simpa using hP'
      subst hc
      rfl
    | cons c2 cs2 =>
      subst hcs
      rw [List.getLast?_cons_cons] at hP'
      have ih' := ih (Or.inr hP')
      by_cases hc : c = '\n'
      · subst hc
        have step : splitLinesAux ('\n' :: c2 :: cs2) =
            [] :: splitLinesAux (c2 :: cs2) := rfl
        rw [step]
        cases hsp : splitLinesAux (c2 :: cs2) with
        | nil => exact absurd hsp (splitLinesAux_ne_nil _)
        | cons q qs =>
          rw [hsp] at ih'
          rw [List.getLast?_cons_cons]
          exact ih'
      · have step : splitLinesAux (c :: c2 :: cs2) =
            match splitLinesAux (c2 :: cs2) with
            | [] => [[c]]
            | p :: ps => (c :: p) :: ps := by
          simp only [splitLinesAux, if_neg hc]
        rw [step]
        cases hsp : splitLinesAux (c2 :: cs2) with
        | nil => exact absurd hsp (splitLinesAux_ne_nil _)
        | cons q qs =>
          rw [hsp] at ih'
          cases hqs : qs with
          | nil =>
            subst hqs
            have hq : q = [] := by simpa using ih'
            subst hq
            have : (c2 :: cs2 : Str) = [] := splitLinesAux_eq_singleton _ hsp
            simp at this
          | cons q2 qs2 =>
            subst hqs
            rw [List.getLast?_cons_cons] at ih'
            rw [List.getLast?_cons_cons]
            exact ih'

theorem splitLinesAux_append_line :
    ∀ (content line : Str), (∀ c ∈ line, c ≠ '\n') →
      (content = [] ∨ content.getLast? = some '\n') →
      splitLinesAux (content ++ line ++ ['\n']) =
        (splitLinesAux content).dropLast ++ [line, []] := by
  intro content
  induction content with
  | nil =>
    intro line hline _
    rw [List.nil_append, show line ++ ['\n'] = line ++ '\n' :: [] from rfl,
      splitLinesAux_line_append line hline []]
    rfl
  | cons c cs ih =>
    intro line hline hP
    have hP' : (c :: cs).getLast? = some '\n' := by
      rcases hP with h | h
      · exact absurd h (by simp)
      · exact h
    cases hcs : cs with
    | nil =>
      subst hcs
      have hc : c = '\n' := by simpa using hP'
      subst hc
      rw [show ('\n' :: ([] : Str)) ++ line ++ ['\n'] = '\n' :: (line ++ '\n' :: []) by simp]
      rw [show splitLinesAux ('\n' :: (line ++ '\n' :: [])) =
        [] :: splitLinesAux (line ++ '\n' :: []) from rfl]
      rw [splitLinesAux_line_append line hline []]
      rfl
    | cons c2 cs2 =>
      subst hcs
      rw [List.getLast?_cons_cons] at hP'
      have ih1 := ih line hline (Or.inr hP')
      have ihLast := getLast?_splitLinesAux (c2 :: cs2) (Or.inr hP')
      by_cases hc : c = '\n'
      · subst hc
        rw [show ('\n' :: (c2 :: cs2)) ++ line ++ ['\n'] =
          '\n' :: ((c2 :: cs2) ++ line ++ ['\n']) by simp]
        rw [show splitLinesAux ('\n' :: ((c2 :: cs2) ++ line ++ ['\n'])) =
          [] :: splitLinesAux ((c2 :: cs2) ++ line ++ ['\n']) from rfl]
        rw [ih1]
        cases hsp : splitLinesAux (c2 :: cs2) with
        | nil => exact absurd hsp (splitLinesAux_ne_nil _)
        | cons q qs =>
          rw [show splitLinesAux ('\n' :: (c2 :: cs2)) =
            [] :: splitLinesAux (c2 :: cs2) from rfl, hsp]
          simp [List.dropLast]
      · rw [show (c :: (c2 :: cs2)) ++ line ++ ['\n'] =
          c :: ((c2 :: cs2) ++ line ++ ['\n']) by simp]
        cases hsp : splitLinesAux (c2 :: cs2) with
        | nil => exact absurd hsp (splitLinesAux_ne_nil _)
        | cons q qs =>
          cases hqs : qs with
          | nil =>
            exfalso
            subst hqs
            rw [hsp] at ihLast
            have hq : q = [] := by simpa using ihLast
            subst hq
            have : (c2 :: cs2 : Str) = [] := splitLinesAux_eq_singleton _ hsp
            simp at this
          | cons q2 qs2 =>
            subst hqs
            have step1 : splitLinesAux (c :: ((c2 :: cs2) ++ line ++ ['\n'])) =
                match splitLinesAux ((c2 :: cs2) ++ line ++ ['\n']) with
                | [] => [[c]]
                | p :: ps => (c :: p) :: ps := by
              simp only [splitLinesAux, if_neg hc]
            have step2 : splitLinesAux (c :: c2 :: cs2) =
                match splitLinesAux (c2 :: cs2) with
                | [] => [[c]]
                | p :: ps => (c :: p) :: ps := by
              simp only [splitLinesAux, if_neg hc]
            rw [step1, ih1, hsp, step2, hsp]
            simp [List.dropLast]

theorem stripCR_of_no_cr {line : Str} (hline : ∀ c ∈ line, c ≠ '\r') :
    stripCR line = line := by
  unfold stripCR
  by_cases h : line.getLast? = some '\r'
  · exact absurd (hline '\r' (List.mem_of_getLast?_eq_some h)) (by simp)
  · rw [if_neg h]

theorem lines_append_record (content line : Str)
    (hline : ∀ c ∈ line, c ≠ '\n' ∧ c ≠ '\r')
    (hP : content = [] ∨ content.getLast? = some '\n') :
    lines (content ++ line ++ ['\n']) = lines content ++ [line] := by
  have h1 := splitLinesAux_append_line content line (fun c hc => (hline c hc).1) hP
  have h2 := getLast?_splitLinesAux content hP
  simp only [lines]
  rw [h1]
  have hg : ((splitLinesAux content).dropLast ++ [line, []]).getLast? = some [] := by
    rw [show (splitLinesAux content).dropLast ++ [line, []] =
      ((splitLinesAux content).dropLast ++ [line]) ++ [[]] by simp]
    exact List.getLast?_concat _
  rw [if_pos hg, if_pos h2]
  rw [show (splitLinesAux content).dropLast ++ [line, []] =
    ((splitLinesAux content).dropLast ++ [line]) ++ [[]] by simp]
  rw [List.dropLast_concat, List.map_append]
  simp [stripCR_of_no_cr (fun c hc => (hline c hc).2)]

/-- C8: ledger round-trip.  Appending a record to a single location and
reading it back yields the previous records followed by exactly the new
record (so the sequence contains a record equal to it), provided the
serialized form round-trips through deserialization, contains no
newline/CR, and is not blank — which is serde-json's contract.  Moreover a
line that fails to deserialize (or is blank) is skipped without affecting
the other records. -/
theorem claim_C8 :
    (∀ (ser : HistoryRecord → Str) (deser : Str → Option HistoryRecord)
        (content : Str) (r : HistoryRecord),
      deser (ser r) = some r →
      (∀ c ∈ ser r, c ≠ '\n' ∧ c ≠ '\r') →
      (trim (ser r)).isEmpty = false →
      (content = [] ∨ content.getLast? = some '\n') →
      read_all deser (append ser content r) =
        read_all deser content ++ [⟨ser r, r⟩])
    ∧ (∀ (deser : Str → Option HistoryRecord) (ls₁ ls₂ : List Str) (bad : Str),
        read_line deser bad = none →
        (ls₁ ++ bad :: ls₂).filterMap (read_line deser) =
          (ls₁ ++ ls₂).filterMap (read_line deser)) := by
  constructor
  · intro ser deser content r hrt hchars hblank hP
    unfold read_all append
    rw [lines_append_record content (ser r) hchars hP, List.filterMap_append]
    have hline : read_line deser (ser r) = some ⟨ser r, r⟩ := by
      unfold read_line
      rw [if_neg (by simp [hblank]), hrt]
    simp [hline]
  · intro deser ls₁ ls₂ bad hbad
    rw [List.filterMap_append, List.filterMap_append]
    simp [hbad]

/-- Witness for C8: a concrete serializer/deserializer pair and one junk
line already in the ledger. -/
theorem claim_C8_witness :
    read_all (fun s => if s = str "R"
        then some ⟨1, str "t", str "c", str "w", 0, 0, none, none, none, none, none⟩
        else none)
      (append (fun _ => str "R") (str "junk" ++ ['\n'])
        ⟨1, str "t", str "c", str "w", 0, 0, none, none, none, none, none⟩) =
      read_all (fun s => if s = str "R"
        then some ⟨1, str "t", str "c", str "w", 0, 0, none, none, none, none, none⟩
        else none) (str "junk" ++ ['\n']) ++
        [⟨str "R", ⟨1, str "t", str "c", str "w", 0, 0, none, none, none, none, none⟩⟩] :=
  claim_C8.1 _ _ _ _ (by decide) (by decide) (by decide) (by decide)

end Rt.History

namespace Rt

theorem char_eq_of_toNat_eq {a b : Char} (h : a.toNat = b.toNat) : a = b :=
  Char.eq_of_val_eq (UInt32.toNat.inj h)

theorem charsCmp_eq_iff : ∀ a b : Str, charsCmp a b = .eq ↔ a = b := by
  intro a
  induction a with
  | nil => intro b; cases b <;> simp [charsCmp]
  | cons x as ih =>
    intro b
    cases b with
    | nil => simp [charsCmp]
    | cons y bs =>
      simp only [charsCmp]
      by_cases h1 : x.toNat < y.toNat
      · rw [if_pos h1]
        refine iff_of_false (by simp) ?_
        intro h
        injection h with hx hy
        subst hx
        omega
      · by_cases h2 : y.toNat < x.toNat
        · rw [if_neg h1, if_pos h2]
          refine iff_of_false (by simp) ?_
          intro h
          injection h with hx hy
          subst hx
          omega
        · rw [if_neg h1, if_neg h2]
          have hxy : x = y := char_eq_of_toNat_eq (by omega)
          subst hxy
          rw [ih bs]
          constructor
          · intro h; rw [h]
          · intro h; injection h

theorem charsCmp_lt_trans :
    ∀ a b c : Str, charsCmp a b = .lt → charsCmp b c = .lt → charsCmp a c = .lt := by
  intro a
  induction a with
  | nil =>
    intro b c hab hbc
    cases b with
    | nil => simp [charsCmp] at hab
    | cons y bs =>
      cases c with
      | nil => simp [charsCmp] at hbc
      | cons z cs => simp [charsCmp]
  | cons x as ih =>
    intro b c hab hbc
    cases b with
    | nil => simp [charsCmp] at hab
    | cons y bs =>
      cases c with
      | nil => simp [charsCmp] at hbc
      | cons z cs =>
        simp only [charsCmp] at hab hbc ⊢
        by_cases h1 : x.toNat < y.toNat
        · by_cases h2 : y.toNat < z.toNat
          · rw [if_pos (by omega)]
          · rw [if_neg h2] at hbc
            by_cases h3 : z.toNat < y.toNat
            · rw [if_pos h3] at hbc
              cases hbc
            · rw [if_neg h3] at hbc
              have : y.toNat = z.toNat := by omega
              rw [if_pos (by omega)]
        · rw [if_neg h1] at hab
          by_cases h4 : y.toNat < x.toNat
          · rw [if_pos h4] at hab
            cases hab
          · rw [if_neg h4] at hab
            have hxy : x.toNat = y.toNat := by omega
            by_cases h2 : y.toNat < z.toNat
            · rw [if_pos (by omega)]
            · rw [if_neg h2] at hbc
              by_cases h3 : z.toNat < y.toNat
              · rw [if_pos h3] at hbc
                cases hbc
              · rw [if_neg h3] at hbc
                rw [if_neg (by omega), if_neg (by omega)]
                exact ih bs cs hab hbc

theorem charsCmp_gt_symm {a b : Str} (h : charsCmp a b = .gt) : charsCmp b a = .lt := by
  rw [Rt.History.charsCmp_swap, h]
  rfl

end Rt

namespace Rt.Makefile

theorem mem_btInsert_keys {α : Type} :
    ∀ (m : List (Str × α)) (k : Str) (v : α) (x : Str × α),
      x ∈ btInsert m k v → x.1 = k ∨ ∃ y ∈ m, y.1 = x.1 := by
  intro m k v
  induction m with
  | nil =>
    intro x hx
    have : x = (k, v) := by simpa [btInsert] using hx
    subst this
    exact Or.inl rfl
  | cons kv m ih =>
    intro x hx
    obtain ⟨k', v'⟩ := kv
    simp only [btInsert] at hx
    split at hx
    · rcases List.mem_cons.mp hx with h | h
      · subst h; exact Or.inl rfl
      · exact Or.inr ⟨x, h, rfl⟩
    · split at hx
      · rcases List.mem_cons.mp hx with h | h
        · subst h; exact Or.inl rfl
        · exact Or.inr ⟨x, List.mem_cons_of_mem _ h, rfl⟩
      · rcases List.mem_cons.mp hx with h | h
        · subst h; exact Or.inr ⟨(k', v'), List.mem_cons_self _ _, rfl⟩
        · rcases ih x h with h' | h'
          · exact Or.inl h'
          · obtain ⟨y, hy, hyx⟩ := h'
            exact Or.inr ⟨y, List.mem_cons_of_mem _ hy, hyx⟩

theorem mem_btEntry_keys :
    ∀ (m : List (Str × Option Str)) (k : Str) (x : Str × Option Str),
      x ∈ btEntryOrInsertNone m k → x.1 = k ∨ ∃ y ∈ m, y.1 = x.1 := by
  intro m k
  induction m with
  | nil =>
    intro x hx
    have : x = (k, none) := by simpa [btEntryOrInsertNone] using hx
    subst this
    exact Or.inl rfl
  | cons kv m ih =>
    intro x hx
    obtain ⟨k', v'⟩ := kv
    simp only [btEntryOrInsertNone] at hx
    split at hx
    · rcases List.mem_cons.mp hx with h | h
      · subst h; exact Or.inl rfl
      · exact Or.inr ⟨x, h, rfl⟩
    · split at hx
      · rcases List.mem_cons.mp hx with h | h
        · subst h; exact Or.inr ⟨(k', v'), List.mem_cons_self _ _, rfl⟩
        · exact Or.inr ⟨x, List.mem_cons_of_mem _ h, rfl⟩
      · rcases List.mem_cons.mp hx with h | h
        · subst h; exact Or.inr ⟨(k', v'), List.mem_cons_self _ _, rfl⟩
        · rcases ih x h with h' | h'
          · exact Or.inl h'
          · obtain ⟨y, hy, hyx⟩ := h'
            exact Or.inr ⟨y, List.mem_cons_of_mem _ hy, hyx⟩

theorem btInsert_sorted {α : Type} :
    ∀ (m : List (Str × α)) (k : Str) (v : α),
      List.Pairwise (fun a b : Str × α => charsCmp a.1 b.1 = .lt) m →
      List.Pairwise (fun a b : Str × α => charsCmp a.1 b.1 = .lt) (btInsert m k v) := by
  intro m k v
  induction m with
  | nil => intro _; simp [btInsert]
  | cons kv m ih =>
    intro h
    obtain ⟨k', v'⟩ := kv
    rw [List.pairwise_cons] at h
    obtain ⟨hk', hm⟩ := h
    simp only [btInsert]
    split
    next h1 =>
      rw [List.pairwise_cons]
      refine ⟨?_, by rw [List.pairwise_cons]; exact ⟨hk', hm⟩⟩
      intro y hy
      rcases List.mem_cons.mp hy with h | h
      · subst h; exact h1
      · exact charsCmp_lt_trans _ _ _ h1 (hk' y h)
    · split
      next h1 h2 =>
        have : k = k' := (charsCmp_eq_iff k k').mp h2
        subst this
        rw [List.pairwise_cons]
        exact ⟨hk', hm⟩
      next h1 h2 =>
        rw [List.pairwise_cons]
        refine ⟨?_, ih hm⟩
        intro y hy
        rcases mem_btInsert_keys m k v y hy with h | h
        · rw [h]
          have hgt : charsCmp k k' = .gt := by
            cases hc : charsCmp k k' with
            | lt => exact absurd hc h1
            | eq => exact absurd hc h2
            | gt => rfl
          exact charsCmp_gt_symm hgt
        · obtain ⟨z, hz, hz1⟩ := h
          rw [← hz1]
          exact hk' z hz

theorem btEntry_sorted :
    ∀ (m : List (Str × Option Str)) (k : Str),
      List.Pairwise (fun a b : Str × Option Str => charsCmp a.1 b.1 = .lt) m →
      List.Pairwise (fun a b : Str × Option Str => charsCmp a.1 b.1 = .lt)
        (btEntryOrInsertNone m k) := by
  intro m k
  induction m with
  | nil => intro _; simp [btEntryOrInsertNone]
  | cons kv m ih =>
    intro h
    obtain ⟨k', v'⟩ := kv
    rw [List.pairwise_cons] at h
    obtain ⟨hk', hm⟩ := h
    simp only [btEntryOrInsertNone]
    split
    next h1 =>
      rw [List.pairwise_cons]
      refine ⟨?_, by rw [List.pairwise_cons]; exact ⟨hk', hm⟩⟩
      intro y hy
      rcases List.mem_cons.mp hy with h | h
      · subst h; exact h1
      · exact charsCmp_lt_trans _ _ _ h1 (hk' y h)
    · split
      next h1 h2 =>
        rw [List.pairwise_cons]
        exact ⟨hk', hm⟩
      next h1 h2 =>
        rw [List.pairwise_cons]
        refine ⟨?_, ih hm⟩
        intro y hy
        rcases mem_btEntry_keys m k y hy with h | h
        · rw [h]
          have hgt : charsCmp k k' = .gt := by
            cases hc : charsCmp k k' with
            | lt => exact absurd hc h1
            | eq => exact absurd hc h2
            | gt => rfl
          exact charsCmp_gt_symm hgt
        · obtain ⟨z, hz, hz1⟩ := h
          rw [← hz1]
          exact hk' z hz

theorem foldl_btEntry_sorted :
    ∀ (names : List Str) (m : List (Str × Option Str)),
      List.Pairwise (fun a b : Str × Option Str => charsCmp a.1 b.1 = .lt) m →
      List.Pairwise (fun a b : Str × Option Str => charsCmp a.1 b.1 = .lt)
        (names.foldl (fun m name => btEntryOrInsertNone m name) m) := by
  intro names
  induction names with
  | nil => intro m h; exact h
  | cons n names ih =>
    intro m h
    exact ih _ (btEntry_sorted m n h)

theorem parse_dump_loop_sorted :
    ∀ (ls : List Str) (in_files : Bool) (tasks : List (Str × Option Str))
      (pending : Option Str),
      List.Pairwise (fun a b : Str × Option Str => charsCmp a.1 b.1 = .lt) tasks →
      List.Pairwise (fun a b : Str × Option Str => charsCmp a.1 b.1 = .lt)
        (parse_dump_loop ls in_files tasks pending) := by
  intro ls
  induction ls with
  | nil => intro _ tasks _ h; simpa [parse_dump_loop] using h
  | cons l rest ih =>
    intro in_files tasks pending h
    simp only [parse_dump_loop]
    split
    · exact ih _ _ _ h
    · split
      · exact ih _ _ _ h
      · split
        · exact h
        · split
          · exact ih _ _ _ (foldl_btEntry_sorted _ _ h)
          · split
            · exact ih _ _ _ h
            · split
              · exact ih _ _ _ h
              · split
                · exact ih _ _ _ h
                · split
                  · exact ih _ _ _ h
                  · split
                    · exact ih _ _ _ h
                    · split
                      · exact ih _ _ _ (btInsert_sorted _ _ _ h)
                      · exact ih _ _ _ (btEntry_sorted _ _ h)

end Rt.Makefile

namespace Rt.Justfile

theorem parse_loop_append_just :
    ∀ ls₁ ls₂ : List Str, parse_loop (ls₁ ++ ls₂) = parse_loop ls₁ ++ parse_loop ls₂ := by
  intro ls₁
  induction ls₁ with
  | nil => intro ls₂; simp [parse_loop]
  | cons l rest ih =>
    intro ls₂
    simp only [List.cons_append, parse_loop]
    repeat' split
    all_goals simp [ih]

theorem parse_loop_singleton_just : ∀ l : Str, (parse_loop [l]).length ≤ 1 := by
  intro l
  simp only [parse_loop]
  repeat' split
  all_goals simp

theorem parse_loop_eq_filterMap_just :
    ∀ ls : List Str, parse_loop ls = ls.filterMap (fun l => (parse_loop [l]).head?) := by
  intro ls
  induction ls with
  | nil => rfl
  | cons l rest ih =>
    have h1 : parse_loop (l :: rest) = parse_loop [l] ++ parse_loop rest := by
      simpa using parse_loop_append_just [l] rest
    rw [List.filterMap_cons, ← ih]
    rcases hl : parse_loop [l] with _ | ⟨x, tail⟩
    · rw [h1, hl]
      simp
    · rcases tail with _ | ⟨y, t2⟩
      · rw [h1, hl]
        simp
      · have := parse_loop_singleton_just l
        rw [hl] at this
        simp at this

end Rt.Justfile

namespace Rt.Taskfile

theorem parse_loop_append_task :
    ∀ ls₁ ls₂ : List Str, parse_loop (ls₁ ++ ls₂) = parse_loop ls₁ ++ parse_loop ls₂ := by
  intro ls₁
  induction ls₁ with
  | nil => intro ls₂; simp [parse_loop]
  | cons l rest ih =>
    intro ls₂
    simp only [List.cons_append, parse_loop]
    repeat' split
    all_goals simp [ih]

theorem parse_loop_singleton_task : ∀ l : Str, (parse_loop [l]).length ≤ 1 := by
  intro l
  simp only [parse_loop]
  repeat' split
  all_goals simp

theorem parse_loop_eq_filterMap_task :
    ∀ ls : List Str, parse_loop ls = ls.filterMap (fun l => (parse_loop [l]).head?) := by
  intro ls
  induction ls with
  | nil => rfl
  | cons l rest ih =>
    have h1 : parse_loop (l :: rest) = parse_loop [l] ++ parse_loop rest := by
      simpa using parse_loop_append_task [l] rest
    rw [List.filterMap_cons, ← ih]
    rcases hl : parse_loop [l] with _ | ⟨x, tail⟩
    · rw [h1, hl]
      simp
    · rcases tail with _ | ⟨y, t2⟩
      · rw [h1, hl]
        simp
      · have := parse_loop_singleton_task l
        rw [hl] at this
        simp at this

end Rt.Taskfile

namespace Rt.CargoMake

theorem parse_loop_append_cm :
    ∀ ls₁ ls₂ : List Str, parse_loop (ls₁ ++ ls₂) = parse_loop ls₁ ++ parse_loop ls₂ := by
  intro ls₁
  induction ls₁ with
  | nil => intro ls₂; simp [parse_loop]
  | cons l rest ih =>
    intro ls₂
    simp only [List.cons_append, parse_loop]
    repeat' split
    all_goals simp [ih]

theorem parse_loop_singleton_cm : ∀ l : Str, (parse_loop [l]).length ≤ 1 := by
  intro l
  simp only [parse_loop]
  repeat' split
  all_goals simp

theorem parse_loop_eq_filterMap_cm :
    ∀ ls : List Str, parse_loop ls = ls.filterMap (fun l => (parse_loop [l]).head?) := by
  intro ls
  induction ls with
  | nil => rfl
  | cons l rest ih =>
    have h1 : parse_loop (l :: rest) = parse_loop [l] ++ parse_loop rest := by
      simpa using parse_loop_append_cm [l] rest
    rw [List.filterMap_cons, ← ih]
    rcases hl : parse_loop [l] with _ | ⟨x, tail⟩
    · rw [h1, hl]
      simp
    · rcases tail with _ | ⟨y, t2⟩
      · rw [h1, hl]
        simp
      · have := parse_loop_singleton_cm l
        rw [hl] at this
        simp at this

end Rt.CargoMake

namespace Rt.Makefile

theorem pairwise_keys_map {β : Type} (f : Str × Option Str → Str × β)
    (hf : ∀ kv, (f kv).1 = kv.1) (tasks : List (Str × Option Str))
    (h : tasks.Pairwise (fun a b => charsCmp a.1 b.1 = .lt)) :
    (tasks.map f).Pairwise (fun a b => charsCmp a.1 b.1 = .lt) := by
  rw [List.pairwise_map]
  refine h.imp ?_
  intro a b hab
  rw [hf, hf]
  exact hab

theorem pairwise_name_of_keys {β : Type} (tasks : List (Str × β))
    (mk : Str × β → TaskItem) (hmk : ∀ kv, (mk kv).name = kv.1)
    (h : tasks.Pairwise (fun a b => charsCmp a.1 b.1 = .lt)) :
    ((tasks.map mk).map TaskItem.name).Pairwise (fun a b => charsCmp a b = .lt) := by
  rw [List.map_map, List.pairwise_map]
  refine h.imp ?_
  intro a b hab
  show charsCmp (mk a).name (mk b).name = .lt
  rw [hmk, hmk]
  exact hab

end Rt.Makefile

namespace Rt

/-- C4 counterexample: the make database-dump dialect does not preserve
first-seen order.  In the dump `b:\na:` the task `b` appears first in the
raw text, yet the catalog comes out as `[a, b]` (ascending name order from
the `BTreeMap`), not `[b, a]`. -/
theorem counterexample_C4 :
    lines (str "b:\na:") = [str "b:", str "a:"]
    ∧ (Makefile.parse_with_makefile_source (str "b:\na:") none).map TaskItem.name =
        [str "a", str "b"]
    ∧ ([str "a", str "b"] : List Str) ≠ [str "b", str "a"] := by
  refine ⟨by decide, by decide, by decide⟩

/-- C4 (amended): the justfile, taskfile and cargo-make listing dialects
emit task entries in the order their lines appear in the raw text — each
parse is the line-by-line `filterMap` of a per-line recognizer producing at
most one entry per line — while the make database-dump dialect instead
emits its entries in ascending lexicographic name order (`BTreeMap`
iteration order), for every dump text and optional makefile source. -/
theorem claim_C4 :
    (∀ output, Justfile.parse output =
      (lines output).filterMap (fun l => (Justfile.parse_loop [l]).head?))
    ∧ (∀ l, (Justfile.parse_loop [l]).length ≤ 1)
    ∧ (∀ output, Taskfile.parse output =
      (lines output).filterMap (fun l => (Taskfile.parse_loop [l]).head?))
    ∧ (∀ l, (Taskfile.parse_loop [l]).length ≤ 1)
    ∧ (∀ output, CargoMake.parse output =
      (lines output).filterMap (fun l => (CargoMake.parse_loop [l]).head?))
    ∧ (∀ l, (CargoMake.parse_loop [l]).length ≤ 1)
    ∧ (∀ output src,
        ((Makefile.parse_with_makefile_source output src).map TaskItem.name).Pairwise
          (fun a b => charsCmp a b = .lt)) := by
  refine ⟨fun output => Justfile.parse_loop_eq_filterMap_just _,
    Justfile.parse_loop_singleton_just,
    fun output => Taskfile.parse_loop_eq_filterMap_task _,
    Taskfile.parse_loop_singleton_task,
    fun output => CargoMake.parse_loop_eq_filterMap_cm _,
    CargoMake.parse_loop_singleton_cm, ?_⟩
  intro output src
  simp only [Makefile.parse_with_makefile_source]
  have h0 := Makefile.parse_dump_loop_sorted (lines output)
    (!(lines output).any fun line => startsWithStr (str "# Files") (trimStart line))
    [] none (by simp)
  cases src with
  | none =>
    exact Makefile.pairwise_name_of_keys _ _ (fun kv => rfl) h0
  | some source =>
    refine Makefile.pairwise_name_of_keys _ _ (fun kv => rfl) ?_
    refine Makefile.pairwise_keys_map _ ?_ _ h0
    intro kv
    rcases kv with ⟨k, _ | d⟩ <;> rfl

end Rt

namespace Rt.Justfile

theorem alookup_ainsert_self {κ α : Type} [DecidableEq κ] :
    ∀ (m : List (κ × α)) (k : κ) (v : α), alookup (ainsert m k v) k = some v := by
  intro m k v
  induction m with
  | nil => simp [ainsert, alookup]
  | cons kv rest ih =>
    obtain ⟨k', v'⟩ := kv
    by_cases h : k' = k
    · simp [ainsert, h, alookup]
    · simp only [ainsert, if_neg h, alookup]
      exact ih

theorem alookup_ainsert_ne {κ α : Type} [DecidableEq κ] :
    ∀ (m : List (κ × α)) (k k' : κ) (v : α), k' ≠ k →
      alookup (ainsert m k v) k' = alookup m k' := by
  intro m k k' v hne
  induction m with
  | nil =>
    simp only [ainsert, alookup]
    rw [if_neg (fun h => hne h.symm)]
  | cons kv rest ih =>
    obtain ⟨k2, v2⟩ := kv
    by_cases h : k2 = k
    · subst h
      simp only [ainsert, if_pos rfl, alookup]
      rw [if_neg (fun h2 => hne h2.symm), if_neg (fun h2 => hne h2.symm)]
    · simp only [ainsert, if_neg h, alookup]
      by_cases h2 : k2 = k'
      · rw [if_pos h2, if_pos h2]
      · rw [if_neg h2, if_neg h2]
        exact ih

theorem alookup_none_of_not_mem {κ α : Type} [DecidableEq κ] :
    ∀ (m : List (κ × α)) (k : κ), k ∉ m.map Prod.fst → alookup m k = none := by
  intro m k
  induction m with
  | nil => intro _; rfl
  | cons kv rest ih =>
    obtain ⟨k', v'⟩ := kv
    intro h
    simp only [List.map_cons, List.mem_cons] at h
    push_neg at h
    simp only [alookup]
    rw [if_neg (fun he => h.1 he.symm)]
    exact ih h.2

theorem mem_keys_of_alookup_some {κ α : Type} [DecidableEq κ] :
    ∀ (m : List (κ × α)) (k : κ) (v : α), alookup m k = some v → k ∈ m.map Prod.fst := by
  intro m k v
  induction m with
  | nil => intro h; cases h
  | cons kv rest ih =>
    obtain ⟨k', v'⟩ := kv
    intro h
    simp only [alookup] at h
    by_cases he : k' = k
    · subst he; simp
    · rw [if_neg he] at h
      simp only [List.map_cons, List.mem_cons]
      exact Or.inr (ih h)

theorem mem_of_alookup_some {κ α : Type} [DecidableEq κ] :
    ∀ (m : List (κ × α)) (k : κ) (v : α), alookup m k = some v → (k, v) ∈ m := by
  intro m k v
  induction m with
  | nil => intro h; cases h
  | cons kv rest ih =>
    obtain ⟨k', v'⟩ := kv
    intro h
    simp only [alookup] at h
    by_cases he : k' = k
    · subst he
      rw [if_pos rfl] at h
      injection h with h
      subst h
      exact List.mem_cons_self _ _
    · rw [if_neg he] at h
      exact List.mem_cons_of_mem _ (ih h)

theorem ainsert_of_none {κ α : Type} [DecidableEq κ] :
    ∀ (m : List (κ × α)) (k : κ) (v : α), alookup m k = none →
      ainsert m k v = m ++ [(k, v)] := by
  intro m k v
  induction m with
  | nil => intro _; rfl
  | cons kv rest ih =>
    obtain ⟨k', v'⟩ := kv
    intro h
    simp only [alookup] at h
    by_cases he : k' = k
    · rw [if_pos he] at h; cases h
    · rw [if_neg he] at h
      simp only [ainsert, if_neg he, List.cons_append]
      rw [ih h]

theorem ainsert_keys_of_some {κ α : Type} [DecidableEq κ] :
    ∀ (m : List (κ × α)) (k : κ) (v w : α), alookup m k = some w →
      (ainsert m k v).map Prod.fst = m.map Prod.fst := by
  intro m k v
  induction m with
  | nil => intro w h; cases h
  | cons kv rest ih =>
    obtain ⟨k', v'⟩ := kv
    intro w h
    simp only [alookup] at h
    by_cases he : k' = k
    · subst he
      simp [ainsert]
    · rw [if_neg he] at h
      simp only [ainsert, if_neg he, List.map_cons]
      rw [ih w h]

theorem mem_ainsert {κ α : Type} [DecidableEq κ] :
    ∀ (m : List (κ × α)) (k : κ) (v : α) (kv : κ × α),
      kv ∈ ainsert m k v → kv = (k, v) ∨ kv ∈ m := by
  intro m k v
  induction m with
  | nil =>
    intro kv h
    simp only [ainsert, List.mem_singleton] at h
    exact Or.inl h
  | cons kv0 rest ih =>
    obtain ⟨k', v'⟩ := kv0
    intro kv h
    simp only [ainsert] at h
    split at h
    · rcases List.mem_cons.mp h with h | h
      · exact Or.inl h
      · exact Or.inr (List.mem_cons_of_mem _ h)
    · rcases List.mem_cons.mp h with h | h
      · exact Or.inr (by rw [h]; exact List.mem_cons_self _ _)
      · rcases ih kv h with h | h
        · exact Or.inl h
        · exact Or.inr (List.mem_cons_of_mem _ h)

theorem concat_decomp {α : Type} :
    ∀ (l l₁ l₂ : List α) (x y : α), l ++ [x] = l₁ ++ y :: l₂ →
      (l₁ = l ∧ y = x ∧ l₂ = []) ∨
      ∃ l₂', l₂ = l₂' ++ [x] ∧ l = l₁ ++ y :: l₂' := by
  intro l l₁ l₂ x y h
  rcases List.eq_nil_or_concat l₂ with h2 | ⟨l₂', z, h2⟩
  · subst h2
    have hlen : l.length = l₁.length := by
      have := congrArg List.length h
      simp at this
      omega
    have h4 := congrArg (List.take l.length) h
    rw [List.take_left, hlen, List.take_left] at h4
    have h5 := congrArg (List.drop l.length) h
    rw [List.drop_left, hlen, List.drop_left] at h5
    injection h5 with h5a
    exact Or.inl ⟨h4.symm, h5a.symm, rfl⟩
  · rw [List.concat_eq_append] at h2
    subst h2
    rw [show l₁ ++ y :: (l₂' ++ [z]) = (l₁ ++ y :: l₂') ++ [z] by simp] at h
    have hlen : l.length = (l₁ ++ y :: l₂').length := by
      have := congrArg List.length h
      simp only [List.length_append, List.length_cons, List.length_singleton] at this
      simp only [List.length_append, List.length_cons]
      omega
    have h4 := congrArg (List.take l.length) h
    rw [List.take_left, hlen, List.take_left] at h4
    have h5 := congrArg (List.drop l.length) h
    rw [List.drop_left, hlen, List.drop_left] at h5
    injection h5 with h5a
    exact Or.inr ⟨l₂', by rw [h5a], h4⟩

end Rt.Justfile

namespace Rt.Justfile

theorem alookup_isSome_of_mem_keys {κ α : Type} [DecidableEq κ] :
    ∀ (m : List (κ × α)) (k : κ), k ∈ m.map Prod.fst → (alookup m k).isSome := by
  intro m k
  induction m with
  | nil => intro h; simp at h
  | cons kv rest ih =>
    obtain ⟨k', v'⟩ := kv
    intro h
    simp only [alookup]
    by_cases he : k' = k
    · rw [if_pos he]; rfl
    · rw [if_neg he]
      simp only [List.map_cons, List.mem_cons] at h
      rcases h with h | h
      · exact absurd h.symm he
      · exact ih h

theorem not_surviving_nil (n : Str) (e : TaskEntry) : ¬ SurvivingEntry [] n e := by
  rintro ⟨l₁, l₂, hdec, -⟩
  cases l₁ <;> simp at hdec

theorem surviving_mem {l : List (TaskItem × Nat)} {n : Str} {e : TaskEntry}
    (h : SurvivingEntry l n e) : (e.item, e.depth) ∈ l ∧ e.item.name = n := by
  obtain ⟨l₁, l₂, hdec, -, hname, -, -⟩ := h
  exact ⟨by rw [hdec]; simp, hname⟩

theorem surviving_min_depth {l : List (TaskItem × Nat)} {n : Str} {e : TaskEntry}
    (h : SurvivingEntry l n e) :
    ∀ p ∈ l, p.1.name = n → e.depth ≤ p.2 := by
  obtain ⟨l₁, l₂, hdec, -, hname, hpre, hpost⟩ := h
  intro p hp hpn
  rw [hdec] at hp
  rcases List.mem_append.mp hp with h | h
  · exact hpre p h hpn
  · rcases List.mem_cons.mp h with h | h
    · rw [h]
    · exact le_of_lt (hpost p h hpn)

theorem surviving_concat_ne {l : List (TaskItem × Nat)} {x : TaskItem × Nat}
    {n : Str} {e : TaskEntry} (hx : x.1.name ≠ n) :
    SurvivingEntry (l ++ [x]) n e ↔ SurvivingEntry l n e := by
  constructor
  · rintro ⟨l₁, l₂, hdec, hord, hname, hpre, hpost⟩
    rcases concat_decomp l l₁ l₂ x (e.item, e.depth) hdec with
      ⟨h1, h2, h3⟩ | ⟨l₂', h2, h3⟩
    · exfalso
      apply hx
      have : e.item = x.1 := (congrArg Prod.fst h2.symm).symm
      rw [← this, hname]
    · exact ⟨l₁, l₂', h3, hord, hname, hpre,
        fun p hp hpn => hpost p (by rw [h2]; exact List.mem_append_left _ hp) hpn⟩
  · rintro ⟨l₁, l₂, hdec, hord, hname, hpre, hpost⟩
    refine ⟨l₁, l₂ ++ [x], by rw [hdec]; simp, hord, hname, hpre, ?_⟩
    intro p hp hpn
    rcases List.mem_append.mp hp with h | h
    · exact hpost p h hpn
    · rw [List.mem_singleton.mp h] at hpn
      exact absurd hpn hx

theorem insert_eq (st : ParseState) (it : TaskItem) (d : Nat) :
    st.insert it d =
      match alookup st.items it.name with
      | none =>
        ⟨saturating_add_one st.order, ainsert st.items it.name ⟨it, d, st.order⟩⟩
      | some existing =>
        if d < existing.depth ∨ d = existing.depth then
          ⟨saturating_add_one st.order, ainsert st.items it.name ⟨it, d, st.order⟩⟩
        else ⟨saturating_add_one st.order, st.items⟩ := by
  unfold ParseState.insert
  cases halo : alookup st.items it.name with
  | none => simp [halo]
  | some existing =>
    simp only [halo]
    by_cases hd : d < existing.depth ∨ d = existing.depth
    · simp [hd]
    · simp [hd]

theorem runInserts_concat (l : List (TaskItem × Nat)) (x : TaskItem × Nat) :
    runInserts (l ++ [x]) = (runInserts l).insert x.1 x.2 := by
  simp [runInserts, List.foldl_append]

end Rt.Justfile

namespace Rt.Justfile

theorem insert_eq_none (st : ParseState) (it : TaskItem) (d : Nat)
    (h : alookup st.items it.name = none) :
    st.insert it d =
      ⟨saturating_add_one st.order, ainsert st.items it.name ⟨it, d, st.order⟩⟩ := by
  rw [insert_eq, h]

theorem insert_eq_replace (st : ParseState) (it : TaskItem) (d : Nat) (existing : TaskEntry)
    (h : alookup st.items it.name = some existing)
    (hd : d < existing.depth ∨ d = existing.depth) :
    st.insert it d =
      ⟨saturating_add_one st.order, ainsert st.items it.name ⟨it, d, st.order⟩⟩ := by
  rw [insert_eq, h]
  exact if_pos hd

theorem insert_eq_keep (st : ParseState) (it : TaskItem) (d : Nat) (existing : TaskEntry)
    (h : alookup st.items it.name = some existing)
    (hd : ¬(d < existing.depth ∨ d = existing.depth)) :
    st.insert it d = ⟨saturating_add_one st.order, st.items⟩ := by
  rw [insert_eq, h]
  exact if_neg hd

theorem runInserts_spec :
    ∀ l : List (TaskItem × Nat), l.length ≤ USIZE_MAX →
      (runInserts l).order = l.length
      ∧ ((runInserts l).items.map Prod.fst).Nodup
      ∧ (∀ kv ∈ (runInserts l).items, kv.2.item.name = kv.1)
      ∧ (∀ n, (alookup (runInserts l).items n).isSome ↔
          n ∈ l.map (fun p => p.1.name))
      ∧ (∀ n e, alookup (runInserts l).items n = some e ↔ SurvivingEntry l n e) := by
  intro l
  induction l using List.reverseRecOn with
  | nil =>
    intro _
    refine ⟨rfl, by simp [runInserts, ParseState.new], by simp [runInserts, ParseState.new],
      ?_, ?_⟩
    · intro n
      simp [runInserts, ParseState.new, alookup]
    · intro n e
      exact iff_of_false (by simp [runInserts, ParseState.new, alookup])
        (not_surviving_nil n e)
  | append_singleton l x ih =>
    intro hlen
    have hlen1 : l.length + 1 ≤ USIZE_MAX := by
      rw [List.length_append, List.length_singleton] at hlen
      omega
    have hlen' : l.length ≤ USIZE_MAX := by omega
    obtain ⟨Ho, Hnd, Hnk, Hdom, Hlk⟩ := ih hlen'
    obtain ⟨it, d⟩ := x
    have hstep := runInserts_concat l (it, d)
    have hsat : saturating_add_one (runInserts l).order = l.length + 1 := by
      rw [Ho]
      unfold saturating_add_one USIZE_MAX
      unfold USIZE_MAX at hlen1
      omega
    have hnames : (l ++ [(it, d)]).map (fun p => p.1.name) =
        l.map (fun p => p.1.name) ++ [it.name] := by simp
    cases halo : alookup (runInserts l).items it.name with
    | none =>
      have hknotin : it.name ∉ l.map (fun p => p.1.name) := by
        intro hk
        have := (Hdom it.name).mpr hk
        rw [halo] at this
        cases this
      have hres : runInserts (l ++ [(it, d)]) =
          ⟨l.length + 1, ainsert (runInserts l).items it.name
            ⟨it, d, (runInserts l).order⟩⟩ := by
        rw [hstep, insert_eq_none _ _ _ halo, hsat]
      have happ : ainsert (runInserts l).items it.name ⟨it, d, (runInserts l).order⟩ =
          (runInserts l).items ++ [(it.name, ⟨it, d, (runInserts l).order⟩)] :=
        ainsert_of_none _ _ _ halo
      have hkeynotin : it.name ∉ (runInserts l).items.map Prod.fst := by
        intro hk
        have := alookup_isSome_of_mem_keys _ _ hk
        rw [halo] at this
        cases this
      refine ⟨by rw [hres]; simp, ?_, ?_, ?_, ?_⟩
      · rw [hres]
        simp only [happ, List.map_append, List.map_cons, List.map_nil]
        rw [List.nodup_append]
        refine ⟨Hnd, by simp, ?_⟩
        intro a ha hb
        rw [List.mem_singleton] at hb
        subst hb
        exact hkeynotin ha
      · rw [hres]
        simp only [happ]
        intro kv hkv
        rcases List.mem_append.mp hkv with h | h
        · exact Hnk kv h
        · rw [List.mem_singleton.mp h]
      · intro n
        rw [hres, hnames]
        by_cases hn : n = it.name
        · subst hn
          rw [alookup_ainsert_self]
          simp
        · rw [alookup_ainsert_ne _ _ _ _ hn, List.mem_append]
          rw [Hdom n]
          simp [hn]
      · intro n e
        rw [hres]
        by_cases hn : n = it.name
        · subst hn
          rw [alookup_ainsert_self]
          constructor
          · intro he
            injection he with he
            subst he
            refine ⟨l, [], by simp, by simp [Ho], rfl, ?_, by simp⟩
            intro p hp hpn
            exact absurd (by rw [← hpn]; exact List.mem_map_of_mem _ hp) hknotin
          · rintro ⟨l₁, l₂, hdec, hord, hname, hpre, hpost⟩
            rcases concat_decomp l l₁ l₂ (it, d) (e.item, e.depth) hdec with
              ⟨h1, h2, h3⟩ | ⟨l₂', h2, h3⟩
            · have hitem : e.item = it := congrArg Prod.fst h2
              have hdepth : e.depth = d := congrArg Prod.snd h2
              obtain ⟨ei, ed, eo⟩ := e
              simp only at hitem hdepth
              subst hitem
              subst hdepth
              simp only at hord
              rw [h1] at hord
              simp [hord, Ho]
            · exfalso
              apply hknotin
              rw [← hname]
              have : (e.item, e.depth) ∈ l := by rw [h3]; simp
              exact List.mem_map_of_mem _ this
        · rw [alookup_ainsert_ne _ _ _ _ hn, Hlk n e]
          exact (surviving_concat_ne (by simpa using fun h => hn h.symm)).symm
    | some existing =>
      have hkin : it.name ∈ l.map (fun p => p.1.name) := by
        have : (alookup (runInserts l).items it.name).isSome := by rw [halo]; rfl
        exact (Hdom it.name).mp this
      have hsurvex : SurvivingEntry l it.name existing := (Hlk it.name existing).mp halo
      by_cases hd : d < existing.depth ∨ d = existing.depth
      · -- replacement case
        have hdle : d ≤ existing.depth := by omega
        have hres : runInserts (l ++ [(it, d)]) =
            ⟨l.length + 1, ainsert (runInserts l).items it.name
              ⟨it, d, (runInserts l).order⟩⟩ := by
          rw [hstep, insert_eq_replace _ _ _ _ halo hd, hsat]
        have hkeys : (ainsert (runInserts l).items it.name
            ⟨it, d, (runInserts l).order⟩).map Prod.fst =
            (runInserts l).items.map Prod.fst :=
          ainsert_keys_of_some _ _ _ _ halo
        refine ⟨by rw [hres]; simp, ?_, ?_, ?_, ?_⟩
        · rw [hres]
          simp only [hkeys]
          exact Hnd
        · rw [hres]
          intro kv hkv
          rcases mem_ainsert _ _ _ _ hkv with h | h
          · rw [h]
          · exact Hnk kv h
        · intro n
          rw [hres, hnames]
          by_cases hn : n = it.name
          · subst hn
            rw [alookup_ainsert_self]
            simp [hkin]
          · rw [alookup_ainsert_ne _ _ _ _ hn, List.mem_append]
            rw [Hdom n]
            simp [hn]
        · intro n e
          rw [hres]
          by_cases hn : n = it.name
          · subst hn
            rw [alookup_ainsert_self]
            constructor
            · intro he
              injection he with he
              subst he
              refine ⟨l, [], by simp, by simp [Ho], rfl, ?_, by simp⟩
              intro p hp hpn
              exact le_trans hdle (surviving_min_depth hsurvex p hp hpn)
            · rintro ⟨l₁, l₂, hdec, hord, hname, hpre, hpost⟩
              rcases concat_decomp l l₁ l₂ (it, d) (e.item, e.depth) hdec with
                ⟨h1, h2, h3⟩ | ⟨l₂', h2, h3⟩
              · have hitem : e.item = it := congrArg Prod.fst h2
                have hdepth : e.depth = d := congrArg Prod.snd h2
                obtain ⟨ei, ed, eo⟩ := e
                simp only at hitem hdepth
                subst hitem
                subst hdepth
                simp only at hord
                rw [h1] at hord
                simp [hord, Ho]
              · exfalso
                have hse : SurvivingEntry l it.name e := by
                  refine ⟨l₁, l₂', h3, hord, hname, hpre, ?_⟩
                  intro p hp hpn
                  exact hpost p (by rw [h2]; exact List.mem_append_left _ hp) hpn
                have he : e = existing := by
                  have := (Hlk it.name e).mpr hse
                  rw [halo] at this
                  injection this with this
                  exact this.symm
                have hxd : e.depth < d := hpost (it, d)
                  (by rw [h2]; simp) (by simp)
                rw [he] at hxd
                omega
          · rw [alookup_ainsert_ne _ _ _ _ hn, Hlk n e]
            exact (surviving_concat_ne (by simpa using fun h => hn h.symm)).symm
      · -- keep case
        have hdgt : existing.depth < d := by omega
        have hres : runInserts (l ++ [(it, d)]) =
            ⟨l.length + 1, (runInserts l).items⟩ := by
          rw [hstep, insert_eq_keep _ _ _ _ halo hd, hsat]
        refine ⟨by rw [hres]; simp, by rw [hres]; exact Hnd, ?_, ?_, ?_⟩
        · rw [hres]
          exact Hnk
        · intro n
          rw [hres, hnames]
          by_cases hn : n = it.name
          · subst hn
            rw [halo]
            simp [hkin]
          · rw [List.mem_append, Hdom n]
            simp [hn]
        · intro n e
          rw [hres]
          by_cases hn : n = it.name
          · subst hn
            rw [halo]
            constructor
            · intro he
              injection he with he
              subst he
              obtain ⟨l₁, l₂, hdec, hord, hname, hpre, hpost⟩ := hsurvex
              refine ⟨l₁, l₂ ++ [(it, d)], by rw [hdec]; simp, hord, hname, hpre, ?_⟩
              intro p hp hpn
              rcases List.mem_append.mp hp with h | h
              · exact hpost p h hpn
              · rw [List.mem_singleton.mp h]
                exact hdgt
            · rintro ⟨l₁, l₂, hdec, hord, hname, hpre, hpost⟩
              rcases concat_decomp l l₁ l₂ (it, d) (e.item, e.depth) hdec with
                ⟨h1, h2, h3⟩ | ⟨l₂', h2, h3⟩
              · exfalso
                have hitem : e.item = it := congrArg Prod.fst h2
                have hdepth : e.depth = d := congrArg Prod.snd h2
                have hexmem := (surviving_mem hsurvex).1
                have := hpre (existing.item, existing.depth)
                  (by rw [h1]; exact hexmem) (surviving_mem hsurvex).2
                rw [hdepth] at this
                simp only at this
                omega
              · have hse : SurvivingEntry l it.name e := by
                  refine ⟨l₁, l₂', h3, hord, hname, hpre, ?_⟩
                  intro p hp hpn
                  exact hpost p (by rw [h2]; exact List.mem_append_left _ hp) hpn
                have := (Hlk it.name e).mpr hse
                rw [halo] at this
                injection this with this
                rw [this]
          · rw [Hlk n e]
            exact (surviving_concat_ne (by simpa using fun h => hn h.symm)).symm

end Rt.Justfile

namespace Rt.Justfile

theorem alookup_eq_of_mem_of_nodup {κ α : Type} [DecidableEq κ]
    (m : List (κ × α)) (kv : κ × α) (hnd : (m.map Prod.fst).Nodup)
    (hm : kv ∈ m) : alookup m kv.1 = some kv.2 := by
  induction m with
  | nil => cases hm
  | cons hd tl ih =>
    rw [List.map_cons, List.nodup_cons] at hnd
    rcases List.mem_cons.mp hm with h | h
    · subst h
      obtain ⟨k, v⟩ := kv
      simp [alookup]
    · have hne : hd.1 ≠ kv.1 := by
        intro he
        exact hnd.1 (he ▸ List.mem_map_of_mem Prod.fst h)
      obtain ⟨k0, v0⟩ := hd
      simp only [alookup]
      rw [if_neg hne]
      exact ih hnd.2 h

theorem surviving_get {l : List (TaskItem × Nat)} {n : Str} {e : TaskEntry}
    (h : SurvivingEntry l n e) : l[e.order]? = some (e.item, e.depth) := by
  obtain ⟨l₁, l₂, hdec, hord, _, _, _⟩ := h
  subst hdec
  rw [hord, List.getElem?_append_right (le_refl l₁.length)]
  simp

theorem items_pairwise_order_ne (l : List (TaskItem × Nat))
    (hlen : l.length ≤ USIZE_MAX) :
    (runInserts l).items.Pairwise (fun a b => a.2.order ≠ b.2.order) := by
  obtain ⟨_, Hnd, Hnk, _, Hlk⟩ := runInserts_spec l hlen
  have hpw : (runInserts l).items.Pairwise (fun a b => a.1 ≠ b.1) :=
    (List.pairwise_map).mp Hnd
  refine hpw.imp_of_mem ?_
  intro a b ha hb hne heq
  have hla : alookup (runInserts l).items a.1 = some a.2 :=
    alookup_eq_of_mem_of_nodup _ _ Hnd ha
  have hlb : alookup (runInserts l).items b.1 = some b.2 :=
    alookup_eq_of_mem_of_nodup _ _ Hnd hb
  have hsa := (Hlk a.1 a.2).mp hla
  have hsb := (Hlk b.1 b.2).mp hlb
  have hga := surviving_get hsa
  have hgb := surviving_get hsb
  rw [heq, hgb] at hga
  have hitem : b.2.item = a.2.item := congrArg Prod.fst (Option.some.inj hga)
  have hnamea : a.2.item.name = a.1 := hsa.choose_spec.choose_spec.2.2.1
  have hnameb : b.2.item.name = b.1 := hsb.choose_spec.choose_spec.2.2.1
  exact hne (by rw [← hnamea, ← hnameb, hitem])

/-- C1: for every sequence of (task, depth) insertions run through
`ParseState::insert` from the fresh state (as one import resolution does),
the final catalog has exactly one entry per inserted task name (keys are
distinct, each entry is stored under its own task name, and a name has an
entry iff it was inserted); the entry surviving for a name is exactly the
insertion with the smallest depth among all insertions of that name, ties
at equal depth broken in favour of the later insertion
(`SurvivingEntry`); and the emission phase (`finalize`, the
`sort_by_key(order)` of `parse_with_imports`) outputs the surviving
entries in strictly ascending insertion order of the surviving
insertion. -/
theorem claim_C1 (l : List (TaskItem × Nat)) (hlen : l.length ≤ USIZE_MAX) :
    (((runInserts l).items.map Prod.fst).Nodup
      ∧ (∀ kv ∈ (runInserts l).items, kv.2.item.name = kv.1)
      ∧ (∀ n, (∃ e, alookup (runInserts l).items n = some e) ↔
          n ∈ l.map (fun p => p.1.name)))
    ∧ (∀ n e, alookup (runInserts l).items n = some e ↔ SurvivingEntry l n e)
    ∧ (∃ ws : List TaskEntry,
        finalize (runInserts l) = ws.map TaskEntry.item
        ∧ ws.Perm ((runInserts l).items.map Prod.snd)
        ∧ ws.Pairwise (fun a b => a.order < b.order)) := by
  obtain ⟨Ho, Hnd, Hnk, Hdom, Hlk⟩ := runInserts_spec l hlen
  refine ⟨⟨Hnd, Hnk, ?_⟩, Hlk, ?_⟩
  · intro n
    rw [← Hdom n]
    constructor
    · rintro ⟨e, he⟩
      rw [he]
      rfl
    · intro h
      cases halo : alookup (runInserts l).items n with
      | none => rw [halo] at h; cases h
      | some e => exact ⟨e, rfl⟩
  · refine ⟨List.insertionSort (fun a b : TaskEntry => a.order ≤ b.order)
      ((runInserts l).items.map Prod.snd), rfl, List.perm_insertionSort _ _, ?_⟩
    have hsorted : (List.insertionSort (fun a b : TaskEntry => a.order ≤ b.order)
        ((runInserts l).items.map Prod.snd)).Pairwise
        (fun a b => a.order ≤ b.order) :=
      List.sorted_insertionSort _ _
    have hvals : ((runInserts l).items.map Prod.snd).Pairwise
        (fun a b => a.order ≠ b.order) :=
      (List.pairwise_map).mpr (items_pairwise_order_ne l hlen)
    have hne : (List.insertionSort (fun a b : TaskEntry => a.order ≤ b.order)
        ((runInserts l).items.map Prod.snd)).Pairwise
        (fun a b => a.order ≠ b.order) :=
      ((List.perm_insertionSort _ _).pairwise_iff
        (fun h he => h he.symm)).mpr hvals
    exact (hsorted.and hne).imp (fun h => Nat.lt_of_le_of_ne h.1 h.2)

theorem claim_C1_witness :
    ([((⟨str "dup", none⟩ : TaskItem), 1), ((⟨str "uniq", none⟩ : TaskItem), 1),
        ((⟨str "dup", none⟩ : TaskItem), 0)].length ≤ USIZE_MAX)
    ∧ ((((runInserts [((⟨str "dup", none⟩ : TaskItem), 1),
          ((⟨str "uniq", none⟩ : TaskItem), 1),
          ((⟨str "dup", none⟩ : TaskItem), 0)]).items.map Prod.fst).Nodup
      ∧ (∀ kv ∈ (runInserts [((⟨str "dup", none⟩ : TaskItem), 1),
          ((⟨str "uniq", none⟩ : TaskItem), 1),
          ((⟨str "dup", none⟩ : TaskItem), 0)]).items, kv.2.item.name = kv.1)
      ∧ (∀ n, (∃ e, alookup (runInserts [((⟨str "dup", none⟩ : TaskItem), 1),
          ((⟨str "uniq", none⟩ : TaskItem), 1),
          ((⟨str "dup", none⟩ : TaskItem), 0)]).items n = some e) ↔
          n ∈ [((⟨str "dup", none⟩ : TaskItem), 1),
          ((⟨str "uniq", none⟩ : TaskItem), 1),
          ((⟨str "dup", none⟩ : TaskItem), 0)].map (fun p => p.1.name)))
    ∧ (∀ n e, alookup (runInserts [((⟨str "dup", none⟩ : TaskItem), 1),
          ((⟨str "uniq", none⟩ : TaskItem), 1),
          ((⟨str "dup", none⟩ : TaskItem), 0)]).items n = some e ↔
          SurvivingEntry [((⟨str "dup", none⟩ : TaskItem), 1),
          ((⟨str "uniq", none⟩ : TaskItem), 1),
          ((⟨str "dup", none⟩ : TaskItem), 0)] n e)
    ∧ (∃ ws : List TaskEntry,
        finalize (runInserts [((⟨str "dup", none⟩ : TaskItem), 1),
          ((⟨str "uniq", none⟩ : TaskItem), 1),
          ((⟨str "dup", none⟩ : TaskItem), 0)]) = ws.map TaskEntry.item
        ∧ ws.Perm ((runInserts [((⟨str "dup", none⟩ : TaskItem), 1),
          ((⟨str "uniq", none⟩ : TaskItem), 1),
          ((⟨str "dup", none⟩ : TaskItem), 0)]).items.map Prod.snd)
        ∧ ws.Pairwise (fun a b => a.order < b.order))) :=
  ⟨by norm_num [USIZE_MAX],
    claim_C1 [((⟨str "dup", none⟩ : TaskItem), 1),
      ((⟨str "uniq", none⟩ : TaskItem), 1),
      ((⟨str "dup", none⟩ : TaskItem), 0)] (by norm_num [USIZE_MAX])⟩

end Rt.Justfile

namespace Rt.Justfile

theorem parse_file_unfold (fs : List (Path × Str)) (resolve : Path → Str → Path)
    (normalize : Path → Path) (fuel : Nat) (p : Path) (depth : Nat)
    (st : ParseState) (stack : List Path) (c : Str)
    (hnm : normalize p ∉ stack) (hc : alookup fs p = some c) :
    parse_file fs resolve normalize (fuel + 1) p depth st stack =
      match (parse_justfile_contents c).imports.reverse.foldl
          (import_step fs resolve normalize fuel p depth (stack ++ [normalize p]))
          (.ok st) with
      | .error e => .error e
      | .ok st2 => .ok (insert_recipes st2 (parse_justfile_contents c).recipes depth) := by
  simp only [parse_file]
  rw [if_neg hnm, hc]
  rfl

theorem parse_file_leaf (fs : List (Path × Str)) (resolve : Path → Str → Path)
    (normalize : Path → Path) (fuel : Nat) (p : Path) (depth : Nat)
    (st : ParseState) (stack : List Path) (c : Str) (recs : List ParsedRecipe)
    (hnm : normalize p ∉ stack) (hc : alookup fs p = some c)
    (hp : parse_justfile_contents c = ⟨[], recs⟩) :
    parse_file fs resolve normalize (fuel + 1) p depth st stack =
      .ok (insert_recipes st recs depth) := by
  rw [parse_file_unfold fs resolve normalize fuel p depth st stack c hnm hc, hp]
  rfl

theorem insert_recipes_runInserts (l : List (TaskItem × Nat))
    (recs : List ParsedRecipe) (d : Nat) :
    insert_recipes (runInserts l) recs d = runInserts (l ++ insList recs d) := by
  simp [insert_recipes, runInserts, insList, List.foldl_append, List.foldl_map]

theorem insert_recipes_new (recs : List ParsedRecipe) (d : Nat) :
    insert_recipes ParseState.new recs d = runInserts (insList recs d) := by
  simpa [runInserts] using insert_recipes_runInserts [] recs d

end Rt.Justfile

namespace Rt.Justfile

/-- Counterexample to C3: the root of `fsC3` declares `import "a"` before
`import "b"`, both imported files define task `x` at the same depth (with
descriptions `A` and `B` respectively), and the surviving definition of
`x` is the EARLIER-declared import's (`A` from file `a`), not the
later-declared one's (`B` from file `b`) — `parse_file` iterates
`parsed.imports.iter().rev()`, so imports are recursed into in reverse
declaration order and the earlier-declared import is inserted last,
winning the equal-depth tie. -/
theorem counterexample_C3 :
    parse_with_imports fsC3 rawResolve id "root" =
      .ok [⟨str "x", some (str "A")⟩, ⟨str "root", none⟩]
    ∧ str "A" ≠ str "B" :=
  ⟨rfl, by decide⟩

end Rt.Justfile

namespace Rt.Justfile

theorem filter_key_eq {κ α : Type} [DecidableEq κ]
    (m : List (κ × α)) (hnd : (m.map Prod.fst).Nodup) (x : κ) (e : α)
    (he : alookup m x = some e) :
    m.filter (fun kv => decide (kv.1 = x)) = [(x, e)] := by
  induction m with
  | nil => cases he
  | cons hd tl ih =>
    obtain ⟨k, v⟩ := hd
    rw [List.map_cons, List.nodup_cons] at hnd
    simp only [alookup] at he
    by_cases hk : k = x
    · subst hk
      rw [if_pos rfl] at he
      injection he with he
      subst he
      rw [List.filter_cons, if_pos (by simp)]
      have htl : tl.filter (fun kv => decide (kv.1 = k)) = [] := by
        rw [List.filter_eq_nil_iff]
        intro kv hkv
        simp only [decide_eq_true_eq]
        intro hx
        apply hnd.1
        rw [← hx]
        have hmem := List.mem_map_of_mem Prod.fst hkv
        exact hmem
      rw [htl]
    · rw [if_neg hk] at he
      rw [List.filter_cons, if_neg (by simp [hk])]
      exact ih hnd.2 he

theorem finalize_filter (l : List (TaskItem × Nat)) (hlen : l.length ≤ USIZE_MAX)
    (x : Str) (e : TaskEntry) (he : alookup (runInserts l).items x = some e) :
    (finalize (runInserts l)).filter (fun t => decide (t.name = x)) = [e.item] := by
  obtain ⟨_, Hnd, Hnk, _, _⟩ := runInserts_spec l hlen
  have hkey : (runInserts l).items.filter (fun kv => decide (kv.1 = x)) = [(x, e)] :=
    filter_key_eq _ Hnd x e he
  have hperm : List.Perm (finalize (runInserts l))
      (((runInserts l).items.map Prod.snd).map TaskEntry.item) :=
    (List.perm_insertionSort _ _).map TaskEntry.item
  have hfp := hperm.filter (fun t => decide (t.name = x))
  have heq2 : (((runInserts l).items.map Prod.snd).map TaskEntry.item).filter
      (fun t => decide (t.name = x)) = [e.item] := by
    rw [List.map_map, List.filter_map]
    have hcg : (runInserts l).items.filter
        ((fun t => decide (t.name = x)) ∘ (TaskEntry.item ∘ Prod.snd)) =
        (runInserts l).items.filter (fun kv => decide (kv.1 = x)) := by
      apply List.filter_congr
      intro kv hkv
      simp only [Function.comp]
      exact decide_eq_decide.mpr (by rw [Hnk kv hkv])
    rw [hcg, hkey]
    rfl
  rw [heq2] at hfp
  exact List.perm_singleton.mp hfp

end Rt.Justfile

namespace Rt.Justfile

theorem import_step_found (fs : List (Path × Str)) (resolve : Path → Str → Path)
    (normalize : Path → Path) (fuel : Nat) (p : Path) (depth : Nat)
    (stack2 : List Path) (st : ParseState) (imp : ImportSpec) (c : Str)
    (hc : alookup fs (resolve p imp.raw) = some c) :
    import_step fs resolve normalize fuel p depth stack2 (.ok st) imp =
      parse_file fs resolve normalize fuel (resolve p imp.raw)
        (saturating_add_one depth) st stack2 := by
  simp only [import_step]
  rw [hc]
  rw [if_neg (by simp)]

/-- C3 (corrected): during justfile import resolution of any file, its
declared imports are recursed into in REVERSE declaration order
(`parsed.imports.iter().rev()` in `parse_file`), all of them before the
file's own recipes are recorded; consequently, when two same-depth
files brought in by import both define the same task name, it is the
EARLIER-declared import's definition that survives (being recursed into
last, its insertion is later and wins the equal-depth tie).  Stated for
a root whose contents declare import `A` then import `B`, both resolving
to readable import-free files: for a task name `x` defined by `B` and
also by `A` (last `A`-recipe named `x` being `rx`) and not defined by
the root, resolution succeeds and the catalog's unique `x` entry is
`rx` — from the earlier-declared import `A`. -/
theorem claim_C3
    (fs : List (Path × Str)) (resolve : Path → Str → Path) (normalize : Path → Path)
    (root : Path) (cr ca cb : Str) (impA impB : ImportSpec)
    (recsR recsA recsB u v : List ParsedRecipe) (rx : ParsedRecipe) (x : Str)
    (hroot : alookup fs root = some cr)
    (hparse : parse_justfile_contents cr = ⟨[impA, impB], recsR⟩)
    (hca : alookup fs (resolve root impA.raw) = some ca)
    (hcb : alookup fs (resolve root impB.raw) = some cb)
    (hparseA : parse_justfile_contents ca = ⟨[], recsA⟩)
    (hparseB : parse_justfile_contents cb = ⟨[], recsB⟩)
    (hna : normalize (resolve root impA.raw) ≠ normalize root)
    (hnb : normalize (resolve root impB.raw) ≠ normalize root)
    (hxB : ∃ r ∈ recsB, r.name = x)
    (hdecA : recsA = u ++ rx :: v)
    (hrx : rx.name = x)
    (hvx : ∀ r ∈ v, r.name ≠ x)
    (hrootx : ∀ r ∈ recsR, r.name ≠ x)
    (hlen : recsB.length + recsA.length + recsR.length ≤ USIZE_MAX) :
    ∃ items, parse_with_imports fs resolve normalize root = .ok items ∧
      items.filter (fun t => decide (t.name = x)) =
        [⟨rx.name, rx.description⟩] := by
  have hfsne : fs ≠ [] := by
    intro h
    rw [h] at hroot
    cases hroot
  have hdne : (fs.map (fun e => normalize e.1)).dedup ≠ [] := by
    intro h
    rw [List.dedup_eq_nil] at h
    rw [List.map_eq_nil_iff] at h
    exact hfsne h
  obtain ⟨q, qs, hq⟩ := List.exists_cons_of_ne_nil hdne
  have hfuel : justfileFuel fs normalize = qs.length + 1 + 1 := by
    rw [justfileFuel, hq]
    simp
  have hsat0 : saturating_add_one 0 = 1 := by
    norm_num [saturating_add_one, USIZE_MAX]
  have hstepB : import_step fs resolve normalize (qs.length + 1) root 0
      [normalize root] (.ok ParseState.new) impB =
      .ok (runInserts (insList recsB 1)) := by
    rw [import_step_found fs resolve normalize _ root 0 [normalize root]
      ParseState.new impB cb hcb, hsat0]
    rw [parse_file_leaf fs resolve normalize qs.length (resolve root impB.raw) 1
      ParseState.new [normalize root] cb recsB (by simpa using hnb) hcb hparseB]
    rw [insert_recipes_new]
  have hstepA : import_step fs resolve normalize (qs.length + 1) root 0
      [normalize root] (.ok (runInserts (insList recsB 1))) impA =
      .ok (runInserts (insList recsB 1 ++ insList recsA 1)) := by
    rw [import_step_found fs resolve normalize _ root 0 [normalize root]
      (runInserts (insList recsB 1)) impA ca hca, hsat0]
    rw [parse_file_leaf fs resolve normalize qs.length (resolve root impA.raw) 1
      (runInserts (insList recsB 1)) [normalize root] ca recsA
      (by simpa using hna) hca hparseA]
    rw [insert_recipes_runInserts]
  have hroot_eval : parse_file fs resolve normalize (qs.length + 1 + 1) root 0
      ParseState.new [] =
      .ok (runInserts ((insList recsB 1 ++ insList recsA 1) ++ insList recsR 0)) := by
    rw [parse_file_unfold fs resolve normalize (qs.length + 1) root 0 ParseState.new []
      cr (by simp) hroot, hparse]
    have hfold : (⟨[impA, impB], recsR⟩ : ParsedFile).imports.reverse.foldl
        (import_step fs resolve normalize (qs.length + 1) root 0
          ([] ++ [normalize root]))
        (.ok ParseState.new) =
        import_step fs resolve normalize (qs.length + 1) root 0 [normalize root]
          (import_step fs resolve normalize (qs.length + 1) root 0 [normalize root]
            (.ok ParseState.new) impB) impA := rfl
    rw [hfold, hstepB, hstepA]
    show Except.ok (insert_recipes (runInserts (insList recsB 1 ++ insList recsA 1))
      recsR 0) = _
    rw [insert_recipes_runInserts]
  have hLlen : ((insList recsB 1 ++ insList recsA 1) ++ insList recsR 0).length =
      recsB.length + recsA.length + recsR.length := by
    simp [insList]
    omega
  have hL : ((insList recsB 1 ++ insList recsA 1) ++ insList recsR 0).length ≤
      USIZE_MAX := by
    rw [hLlen]
    exact hlen
  obtain ⟨_, _, _, _, Hlk⟩ :=
    runInserts_spec ((insList recsB 1 ++ insList recsA 1) ++ insList recsR 0) hL
  have hsurv : SurvivingEntry ((insList recsB 1 ++ insList recsA 1) ++ insList recsR 0)
      x ⟨⟨rx.name, rx.description⟩, 1, (insList recsB 1 ++ insList u 1).length⟩ := by
    refine ⟨insList recsB 1 ++ insList u 1, insList v 1 ++ insList recsR 0, ?_, rfl,
      hrx, ?_, ?_⟩
    · rw [hdecA]
      simp [insList]
    · intro p hp _
      rcases List.mem_append.mp hp with h | h
      · obtain ⟨r, hr, hpr⟩ := List.mem_map.mp h
        rw [← hpr]
      · obtain ⟨r, hr, hpr⟩ := List.mem_map.mp h
        rw [← hpr]
    · intro p hp hpn
      rcases List.mem_append.mp hp with h | h
      · obtain ⟨r, hr, hpr⟩ := List.mem_map.mp h
        exact absurd ((congrArg (fun q => q.1.name) hpr).trans hpn) (hvx r hr)
      · obtain ⟨r, hr, hpr⟩ := List.mem_map.mp h
        exact absurd ((congrArg (fun q => q.1.name) hpr).trans hpn) (hrootx r hr)
  have halk : alookup
      (runInserts ((insList recsB 1 ++ insList recsA 1) ++ insList recsR 0)).items x =
      some ⟨⟨rx.name, rx.description⟩, 1, (insList recsB 1 ++ insList u 1).length⟩ :=
    (Hlk x _).mpr hsurv
  refine ⟨finalize (runInserts
    ((insList recsB 1 ++ insList recsA 1) ++ insList recsR 0)), ?_, ?_⟩
  · simp only [parse_with_imports]
    rw [hfuel, hroot_eval]
  · exact finalize_filter _ hL x _ halk

end Rt.Justfile

namespace Rt.Justfile

theorem claim_C3_witness :
    ∃ items, parse_with_imports fsC3 rawResolve id "root" = .ok items ∧
      items.filter (fun t => decide (t.name = str "x")) =
        [⟨str "x", some (str "A")⟩] :=
  claim_C3 fsC3 rawResolve id "root"
    (str "import \"a\"\nimport \"b\"\nroot:\n") (str "x: # A\n") (str "x: # B\n")
    ⟨str "a", false⟩ ⟨str "b", false⟩
    [⟨str "root", none⟩] [⟨str "x", some (str "A")⟩] [⟨str "x", some (str "B")⟩]
    [] [] ⟨str "x", some (str "A")⟩ (str "x")
    rfl rfl rfl rfl rfl rfl
    (by decide) (by decide)
    ⟨⟨str "x", some (str "B")⟩, List.mem_singleton.mpr rfl, rfl⟩
    rfl rfl
    (fun r hr => absurd hr (List.not_mem_nil r))
    (fun r hr => by rw [List.mem_singleton.mp hr]; decide)
    (by norm_num [USIZE_MAX])

end Rt.Justfile

namespace Rt.Justfile

theorem filter_length_mono {α : Type} (l : List α) (P Q : α → Bool)
    (himp : ∀ y, Q y = true → P y = true) :
    (l.filter Q).length ≤ (l.filter P).length := by
  induction l with
  | nil => simp
  | cons a l ih =>
    rw [List.filter_cons, List.filter_cons]
    cases hq : Q a with
    | true =>
      rw [himp a hq]
      simpa using ih
    | false =>
      cases hp : P a with
      | true =>
        simp only [if_pos rfl, if_neg Bool.false_ne_true, List.length_cons]
        exact Nat.le_trans ih (Nat.le_succ _)
      | false => simpa using ih

theorem filter_length_lt {α : Type} (l : List α) (P Q : α → Bool)
    (himp : ∀ y, Q y = true → P y = true) (p : α) (hp : p ∈ l)
    (hP : P p = true) (hQ : Q p = false) :
    (l.filter Q).length < (l.filter P).length := by
  induction l with
  | nil => cases hp
  | cons a l ih =>
    rw [List.filter_cons, List.filter_cons]
    rcases List.mem_cons.mp hp with h | h
    · subst h
      rw [hP, hQ]
      simp only [if_pos rfl, if_neg Bool.false_ne_true, List.length_cons]
      exact Nat.lt_succ_of_le (filter_length_mono l P Q himp)
    · cases hq : Q a with
      | true =>
        rw [himp a hq]
        simpa using ih h
      | false =>
        cases hp2 : P a with
        | true =>
          simp only [if_pos rfl, if_neg Bool.false_ne_true, List.length_cons]
          exact Nat.lt_trans (ih h) (Nat.lt_succ_self _)
        | false => simpa using ih h

theorem parse_file_no_outOfFuel (fs : List (Path × Str)) (resolve : Path → Str → Path)
    (normalize : Path → Path) :
    ∀ (fuel : Nat) (path : Path) (depth : Nat) (state : ParseState)
      (stack : List Path),
      ((fs.map (fun e => normalize e.1)).dedup.filter
        (fun p => decide (p ∉ stack))).length < fuel →
      parse_file fs resolve normalize fuel path depth state stack ≠
        .error .outOfFuel := by
  intro fuel
  induction fuel with
  | zero =>
    intro path depth state stack hm
    exact absurd hm (Nat.not_lt_zero _)
  | succ fuel ih =>
    intro path depth state stack hm
    by_cases hmem : normalize path ∈ stack
    · intro h
      rw [show parse_file fs resolve normalize (fuel + 1) path depth state stack =
          .ok state by simp only [parse_file]; rw [if_pos hmem]] at h
      cases h
    · cases halo : alookup fs path with
      | none =>
        intro h
        rw [show parse_file fs resolve normalize (fuel + 1) path depth state stack =
            .error (.readError path) by
          simp only [parse_file]; rw [if_neg hmem, halo]] at h
        injection h with h
        cases h
      | some contents =>
        rw [parse_file_unfold fs resolve normalize fuel path depth state stack
          contents hmem halo]
        have hdrop : ((fs.map (fun e => normalize e.1)).dedup.filter
            (fun p => decide (p ∉ stack ++ [normalize path]))).length < fuel := by
          have hin : normalize path ∈ (fs.map (fun e => normalize e.1)).dedup := by
            rw [List.mem_dedup]
            have hmem2 := List.mem_map_of_mem (fun e => normalize e.1)
              (mem_of_alookup_some fs path contents halo)
            exact hmem2
          have hlt := filter_length_lt ((fs.map (fun e => normalize e.1)).dedup)
            (fun p => decide (p ∉ stack))
            (fun p => decide (p ∉ stack ++ [normalize path]))
            (by
              intro y hy
              simp only [decide_eq_true_eq] at hy ⊢
              intro hc
              exact hy (List.mem_append_left _ hc))
            (normalize path) hin
            (by simp [hmem])
            (by simp)
          omega
        have hfold : ∀ (imps : List ImportSpec) (acc : Except ResolveError ParseState),
            acc ≠ .error .outOfFuel →
            imps.foldl (import_step fs resolve normalize fuel path depth
              (stack ++ [normalize path])) acc ≠ .error .outOfFuel := by
          intro imps
          induction imps with
          | nil =>
            intro acc hacc
            simpa using hacc
          | cons imp rest ihr =>
            intro acc hacc
            rw [List.foldl_cons]
            apply ihr
            cases acc with
            | error e => simpa [import_step] using hacc
            | ok st =>
              by_cases hres : alookup fs (resolve path imp.raw) = none
              · simp only [import_step]
                rw [if_pos hres]
                cases imp.optional with
                | true => simp
                | false => simp
              · cases hres2 : alookup fs (resolve path imp.raw) with
                | none => exact absurd hres2 hres
                | some c =>
                  rw [import_step_found fs resolve normalize fuel path depth
                    (stack ++ [normalize path]) st imp c hres2]
                  exact ih (resolve path imp.raw) (saturating_add_one depth) st
                    (stack ++ [normalize path]) hdrop
        cases hf : (parse_justfile_contents contents).imports.reverse.foldl
            (import_step fs resolve normalize fuel path depth
              (stack ++ [normalize path])) (.ok state) with
        | error e =>
          have hne := hfold (parse_justfile_contents contents).imports.reverse
            (.ok state) (by simp)
          rw [hf] at hne
          exact hne
        | ok st2 =>
          intro h
          exact Except.noConfusion h

end Rt.Justfile

namespace Rt.Justfile

theorem insert_good {st : ParseState} (h : GoodState st) (it : TaskItem) (d : Nat) :
    GoodState (st.insert it d) := by
  cases halo : alookup st.items it.name with
  | none =>
    rw [insert_eq_none st it d halo]
    have happ := ainsert_of_none st.items it.name ⟨it, d, st.order⟩ halo
    have hkeynotin : it.name ∉ st.items.map Prod.fst := by
      intro hk
      have := alookup_isSome_of_mem_keys _ _ hk
      rw [halo] at this
      cases this
    constructor
    · show ((ainsert st.items it.name ⟨it, d, st.order⟩).map Prod.fst).Nodup
      rw [happ]
      simp only [List.map_append, List.map_cons, List.map_nil]
      rw [List.nodup_append]
      refine ⟨h.1, by simp, ?_⟩
      intro a ha hb
      rw [List.mem_singleton] at hb
      subst hb
      exact hkeynotin ha
    · intro kv hkv
      rw [happ] at hkv
      rcases List.mem_append.mp hkv with hk | hk
      · exact h.2 kv hk
      · rw [List.mem_singleton.mp hk]
  | some e =>
    by_cases hd : d < e.depth ∨ d = e.depth
    · rw [insert_eq_replace st it d e halo hd]
      constructor
      · show ((ainsert st.items it.name ⟨it, d, st.order⟩).map Prod.fst).Nodup
        rw [ainsert_keys_of_some _ _ _ _ halo]
        exact h.1
      · intro kv hkv
        rcases mem_ainsert _ _ _ _ hkv with hk | hk
        · rw [hk]
        · exact h.2 kv hk
    · rw [insert_eq_keep st it d e halo hd]
      exact h

theorem insert_recipes_good {st : ParseState} (recs : List ParsedRecipe) (d : Nat)
    (h : GoodState st) : GoodState (insert_recipes st recs d) := by
  induction recs generalizing st with
  | nil => exact h
  | cons r rest ih =>
    have hstep : insert_recipes st (r :: rest) d =
        insert_recipes (st.insert ⟨r.name, r.description⟩ d) rest d := by
      simp [insert_recipes]
    rw [hstep]
    exact ih (insert_good h _ _)

theorem parse_file_good (fs : List (Path × Str)) (resolve : Path → Str → Path)
    (normalize : Path → Path) :
    ∀ (fuel : Nat) (path : Path) (depth : Nat) (st : ParseState)
      (stack : List Path) (st2 : ParseState),
      GoodState st →
      parse_file fs resolve normalize fuel path depth st stack = .ok st2 →
      GoodState st2 := by
  intro fuel
  induction fuel with
  | zero =>
    intro path depth st stack st2 _ heq
    exact Except.noConfusion heq
  | succ fuel ih =>
    intro path depth st stack st2 hg heq
    by_cases hmem : normalize path ∈ stack
    · rw [show parse_file fs resolve normalize (fuel + 1) path depth st stack =
          .ok st by simp only [parse_file]; rw [if_pos hmem]] at heq
      injection heq with heq
      rw [← heq]
      exact hg
    · cases halo : alookup fs path with
      | none =>
        rw [show parse_file fs resolve normalize (fuel + 1) path depth st stack =
            .error (.readError path) by
          simp only [parse_file]; rw [if_neg hmem, halo]] at heq
        exact Except.noConfusion heq
      | some contents =>
        rw [parse_file_unfold fs resolve normalize fuel path depth st stack
          contents hmem halo] at heq
        have hfold : ∀ (imps : List ImportSpec) (acc : Except ResolveError ParseState),
            (∀ sa, acc = .ok sa → GoodState sa) →
            ∀ sb, imps.foldl (import_step fs resolve normalize fuel path depth
              (stack ++ [normalize path])) acc = .ok sb → GoodState sb := by
          intro imps
          induction imps with
          | nil =>
            intro acc hacc sb hsb
            exact hacc sb hsb
          | cons imp rest ihr =>
            intro acc hacc sb hsb
            rw [List.foldl_cons] at hsb
            refine ihr _ ?_ sb hsb
            intro sa hsa
            cases acc with
            | error e => exact absurd hsa (by simp [import_step])
            | ok st0 =>
              have hg0 := hacc st0 rfl
              by_cases hres : alookup fs (resolve path imp.raw) = none
              · rw [show import_step fs resolve normalize fuel path depth
                    (stack ++ [normalize path]) (.ok st0) imp =
                    (if imp.optional then .ok st0
                      else .error (.importNotFound (resolve path imp.raw))) by
                  simp only [import_step]; rw [if_pos hres]] at hsa
                cases hopt : imp.optional with
                | true =>
                  rw [hopt, if_pos rfl] at hsa
                  injection hsa with hsa
                  rw [← hsa]
                  exact hg0
                | false =>
                  rw [hopt, if_neg Bool.false_ne_true] at hsa
                  exact Except.noConfusion hsa
              · cases hres2 : alookup fs (resolve path imp.raw) with
                | none => exact absurd hres2 hres
                | some c =>
                  rw [import_step_found fs resolve normalize fuel path depth
                    (stack ++ [normalize path]) st0 imp c hres2] at hsa
                  exact ih (resolve path imp.raw) (saturating_add_one depth) st0
                    (stack ++ [normalize path]) sa hg0 hsa
        cases hf : (parse_justfile_contents contents).imports.reverse.foldl
            (import_step fs resolve normalize fuel path depth
              (stack ++ [normalize path])) (.ok st) with
        | error e =>
          rw [hf] at heq
          exact Except.noConfusion heq
        | ok stM =>
          rw [hf] at heq
          have hgM := hfold (parse_justfile_contents contents).imports.reverse
            (.ok st) (fun sa hsa => by injection hsa with hsa; rw [← hsa]; exact hg)
            stM hf
          have heq2 : Except.ok (insert_recipes stM
              (parse_justfile_contents contents).recipes depth) = Except.ok st2 := heq
          injection heq2 with heq2
          rw [← heq2]
          exact insert_recipes_good _ _ hgM

end Rt.Justfile

namespace Rt.Justfile

theorem names_nodup_of_good {st : ParseState} (h : GoodState st) :
    ((finalize st).map TaskItem.name).Nodup := by
  unfold finalize
  rw [List.map_map]
  have hvals : ((st.items.map Prod.snd).map
      (fun e : TaskEntry => e.item.name)).Nodup := by
    rw [List.map_map]
    have hcg : st.items.map ((fun e : TaskEntry => e.item.name) ∘ Prod.snd) =
        st.items.map Prod.fst := by
      apply List.map_congr_left
      intro kv hkv
      exact h.2 kv hkv
    rw [hcg]
    exact h.1
  have hperm := (List.perm_insertionSort
    (fun a b : TaskEntry => a.order ≤ b.order) (st.items.map Prod.snd)).map
    (fun e : TaskEntry => e.item.name)
  exact hperm.nodup_iff.mpr hvals

theorem new_good : GoodState ParseState.new := by
  constructor
  · simp [ParseState.new]
  · intro kv hkv
    simp [ParseState.new] at hkv

/-- C9: cycle safety and termination of justfile import resolution.
(i) Re-entering a file whose normalized path is already on the current
descent stack is a silent no-op: `parse_file` returns the state unchanged
as `Ok`, not an error.  (ii) For every finite file system — including
ones whose import graph has cycles or diamonds — resolution with the
adequate fuel `justfileFuel` terminates without exhausting fuel: the
fuel-exhaustion artifact of the embedding is never the result of
`parse_with_imports`.  (iii) Whenever resolution succeeds, the resulting
catalog contains at most one entry per task name: the emitted task names
are pairwise distinct, so a file reachable twice via different import
paths contributes at most one entry per task name. -/
theorem claim_C9 :
    (∀ (fs : List (Path × Str)) (resolve : Path → Str → Path)
        (normalize : Path → Path) (fuel : Nat) (path : Path) (depth : Nat)
        (state : ParseState) (stack : List Path),
      normalize path ∈ stack →
      parse_file fs resolve normalize (fuel + 1) path depth state stack = .ok state)
    ∧ (∀ (fs : List (Path × Str)) (resolve : Path → Str → Path)
        (normalize : Path → Path) (path : Path),
      parse_with_imports fs resolve normalize path ≠ .error .outOfFuel)
    ∧ (∀ (fs : List (Path × Str)) (resolve : Path → Str → Path)
        (normalize : Path → Path) (path : Path) (items : List TaskItem),
      parse_with_imports fs resolve normalize path = .ok items →
      (items.map TaskItem.name).Nodup) := by
  refine ⟨?_, ?_, ?_⟩
  · intro fs resolve normalize fuel path depth state stack hmem
    simp only [parse_file]
    rw [if_pos hmem]
  · intro fs resolve normalize path
    have hmeas : ((fs.map (fun e => normalize e.1)).dedup.filter
        (fun p => decide (p ∉ ([] : List Path)))).length <
        justfileFuel fs normalize := by
      have : ((fs.map (fun e => normalize e.1)).dedup.filter
          (fun p => decide (p ∉ ([] : List Path)))) =
          (fs.map (fun e => normalize e.1)).dedup := by
        apply List.filter_eq_self.mpr
        intro a _
        simp
      rw [this, justfileFuel]
      exact Nat.lt_succ_self _
    have hno := parse_file_no_outOfFuel fs resolve normalize
      (justfileFuel fs normalize) path 0 ParseState.new [] hmeas
    intro h
    apply hno
    simp only [parse_with_imports] at h
    cases hpf : parse_file fs resolve normalize (justfileFuel fs normalize) path 0
        ParseState.new [] with
    | error e =>
      rw [hpf] at h
      have he : e = ResolveError.outOfFuel := by
        have h2 : Except.error (ε := ResolveError) (α := List TaskItem) e =
            .error .outOfFuel := h
        injection h2
      rw [he]
    | ok st =>
      rw [hpf] at h
      exact Except.noConfusion h
  · intro fs resolve normalize path items h
    simp only [parse_with_imports] at h
    cases hpf : parse_file fs resolve normalize (justfileFuel fs normalize) path 0
        ParseState.new [] with
    | error e =>
      rw [hpf] at h
      exact absurd h (by intro h2; exact Except.noConfusion h2)
    | ok st =>
      rw [hpf] at h
      have hst : finalize st = items := by
        have h2 : Except.ok (ε := ResolveError) (finalize st) = .ok items := h
        injection h2
      have hgood := parse_file_good fs resolve normalize
        (justfileFuel fs normalize) path 0 ParseState.new [] st new_good hpf
      rw [← hst]
      exact names_nodup_of_good hgood

end Rt.Justfile

namespace Rt.Justfile

theorem claim_C9_witness :
    parse_file fsC9 rawResolve id (0 + 1) "a" 0 ParseState.new ["a"] =
      .ok ParseState.new
    ∧ parse_with_imports fsC9 rawResolve id "a" ≠ .error .outOfFuel
    ∧ (([⟨str "y", none⟩, ⟨str "x", none⟩] : List TaskItem).map
        TaskItem.name).Nodup :=
  ⟨claim_C9.1 fsC9 rawResolve id 0 "a" 0 ParseState.new ["a"] (by simp),
   claim_C9.2.1 fsC9 rawResolve id "a",
   claim_C9.2.2 fsC9 rawResolve id "a" [⟨str "y", none⟩, ⟨str "x", none⟩] rfl⟩

end Rt.Justfile
